import Mathlib

/-!
Verification of the page-hierarchy resolution and mutation engine of the
conflagent repository (src/conflagent_core/confluence.py).

The remote Confluence space is modelled as a forest of page trees: each node
carries the page record {id, title, version, body} and the list of its child
subtrees, in the remote API's listing order.  The REST calls issued by
`ConfluenceClient` are modelled as functions over this forest:

* `GET /content?spaceKey&title&expand=ancestors`  -> `Remote.search`
* `GET /content/{id}?expand=...`                  -> `Remote.getPage`
* `GET /content/{id}/child/page`                  -> `Remote.children`
* `POST /content`                                 -> `Remote.create`
* `PUT /content/{id}` (body payload)              -> `Remote.putContent`
* `PUT /content/{id}` (ancestors payload)         -> `Remote.putMove`

A well-formed remote space has pairwise-distinct page ids (`NodupIds`) and a
fresh-id allocator (`Fresh`); theorems assume these invariants where needed.
Fallible remote calls return `Option`/`Except`: `none` models a remote 404,
which `ConfluenceClient._request` turns into an abort carrying the remote
status (RemoteError).  Client-side aborts (`abort(404, ...)`,
`abort(422, ...)`) are modelled as `Except.error` carrying the HTTP status
and message.  Each state-changing client operation additionally returns the
list of remote calls it issued, so that theorems can speak about which write
calls were (not) performed.
-/

namespace Conflagent

/-- A remote Confluence page record: id, title, current version number and
storage-format body. -/
structure Page where
  id : Nat
  title : String
  version : Nat
  body : String
deriving Repr, DecidableEq

/-- A subtree of the remote space: a page together with its child subtrees in
the remote API's listing order. -/
inductive PTree where
  | node (page : Page) (children : List PTree)
deriving Repr

/-- The page stored at the root of a subtree. -/
def PTree.page : PTree → Page
  | .node p _ => p

/-- The child subtrees of the root of a subtree. -/
def PTree.children : PTree → List PTree
  | .node _ cs => cs

mutual
/-- All page ids occurring in a subtree, in depth-first pre-order. -/
def PTree.ids : PTree → List Nat
  | .node p cs => p.id :: Forest.ids cs

/-- All page ids occurring in a forest, in depth-first pre-order. -/
def Forest.ids : List PTree → List Nat
  | [] => []
  | t :: ts => t.ids ++ Forest.ids ts
end

mutual
/-- Every subtree of a tree paired with the ancestor chain (pages from the
space root down to the immediate parent) of its root page, in depth-first
pre-order; `anc` is the chain accumulated above the tree. -/
def PTree.withAnc (anc : List Page) : PTree → List (PTree × List Page)
  | .node p cs => (.node p cs, anc) :: Forest.withAnc (anc ++ [p]) cs

/-- Every subtree of a forest paired with its root's ancestor chain. -/
def Forest.withAnc (anc : List Page) : List PTree → List (PTree × List Page)
  | [] => []
  | t :: ts => PTree.withAnc anc t ++ Forest.withAnc anc ts
end

mutual
/-- Locate the first subtree (in depth-first pre-order) whose root page has
the given id, together with its ancestor chain. -/
def PTree.locate (anc : List Page) (pid : Nat) : PTree → Option (PTree × List Page)
  | .node p cs =>
    if p.id == pid then some (.node p cs, anc)
    else Forest.locate (anc ++ [p]) pid cs

/-- Locate a page id in a forest (depth-first pre-order). -/
def Forest.locate (anc : List Page) (pid : Nat) : List PTree → Option (PTree × List Page)
  | [] => none
  | t :: ts =>
    match PTree.locate anc pid t with
    | some r => some r
    | none => Forest.locate anc pid ts
end

mutual
/-- Remote `POST /content` semantics on a subtree: append a new leaf child
under every node carrying the parent id (in a well-formed space ids are
unique, so at most one node matches). -/
def PTree.insertChild (pid : Nat) (q : Page) : PTree → PTree
  | .node p cs =>
    if p.id == pid then .node p (Forest.insertChild pid q cs ++ [.node q []])
    else .node p (Forest.insertChild pid q cs)

/-- Remote `POST /content` semantics on a forest. -/
def Forest.insertChild (pid : Nat) (q : Page) : List PTree → List PTree
  | [] => []
  | t :: ts => PTree.insertChild pid q t :: Forest.insertChild pid q ts
end

mutual
/-- Remote `PUT /content/{id}` with a body payload: overwrite title, version
and body of every node carrying the given id. -/
def PTree.setFields (pid : Nat) (ti : String) (v : Nat) (b : String) : PTree → PTree
  | .node p cs =>
    if p.id == pid then
      .node { p with title := ti, version := v, body := b } (Forest.setFields pid ti v b cs)
    else .node p (Forest.setFields pid ti v b cs)

/-- Remote `PUT /content/{id}` with a body payload, on a forest. -/
def Forest.setFields (pid : Nat) (ti : String) (v : Nat) (b : String) : List PTree → List PTree
  | [] => []
  | t :: ts => PTree.setFields pid ti v b t :: Forest.setFields pid ti v b ts
end

/-- The field overwrite a body-payload PUT applies to the page carrying the
targeted id. -/
def pageSet (pid : Nat) (ti : String) (v : Nat) (b : String) (p : Page) : Page :=
  if p.id == pid then { p with title := ti, version := v, body := b } else p

mutual
/-- Remove every subtree whose root carries the given id (used by the
re-parenting PUT of `move_page`). -/
def PTree.eraseSub (pid : Nat) : PTree → PTree
  | .node p cs => .node p (Forest.eraseSub pid cs)

/-- Remove every subtree whose root carries the given id, from a forest. -/
def Forest.eraseSub (pid : Nat) : List PTree → List PTree
  | [] => []
  | t :: ts =>
    if t.page.id == pid then Forest.eraseSub pid ts
    else PTree.eraseSub pid t :: Forest.eraseSub pid ts
end

mutual
/-- Attach a prebuilt subtree as a new last child of every node carrying the
given parent id (used by the re-parenting PUT of `move_page`). -/
def PTree.attachTree (pid : Nat) (sub : PTree) : PTree → PTree
  | .node p cs =>
    if p.id == pid then .node p (Forest.attachTree pid sub cs ++ [sub])
    else .node p (Forest.attachTree pid sub cs)

/-- Attach a prebuilt subtree under a parent id, on a forest. -/
def Forest.attachTree (pid : Nat) (sub : PTree) : List PTree → List PTree
  | [] => []
  | t :: ts => PTree.attachTree pid sub t :: Forest.attachTree pid sub ts
end

/-- The remote space state: the forest of pages plus the id the remote system
will assign to the next created page. -/
structure SpaceState where
  forest : List PTree
  nextId : Nat
deriving Repr

/-- Well-formed remote space: all page ids are pairwise distinct. -/
def NodupIds (f : List PTree) : Prop := (Forest.ids f).Nodup

/-- The id allocator never reuses an existing id. -/
def Fresh (s : SpaceState) : Prop := ∀ x ∈ Forest.ids s.forest, x < s.nextId

instance : DecidablePred NodupIds := fun f =>
  (inferInstance : Decidable (Forest.ids f).Nodup)

instance (s : SpaceState) : Decidable (Fresh s) :=
  (inferInstance : Decidable (∀ x ∈ Forest.ids s.forest, x < s.nextId))

/-- `GET /content?spaceKey&title&expand=ancestors`: every page of the space
with the given title, with its ancestor chain, in the API's listing order
(modelled as depth-first pre-order). -/
def Remote.search (f : List PTree) (title : String) : List (Page × List Page) :=
  ((Forest.withAnc [] f).filter (fun pr => pr.1.page.title == title)).map
    (fun pr => (pr.1.page, pr.2))

/-- `GET /content/{id}?expand=ancestors,version`: the page with the given id
and its ancestor chain; `none` models a remote 404. -/
def Remote.getPage (f : List PTree) (pid : Nat) : Option (Page × List Page) :=
  (Forest.locate [] pid f).map (fun r => (r.1.page, r.2))

/-- `GET /content/{id}/child/page`: the direct children of the page with the
given id, in listing order; `none` models a remote 404. -/
def Remote.children (f : List PTree) (pid : Nat) : Option (List Page) :=
  (Forest.locate [] pid f).map (fun r => r.1.children.map PTree.page)

/-- State evolution that only appends to child listings: every child listing
readable in the first state is a prefix of the same listing in the second. -/
def ChildExt (sA sB : SpaceState) : Prop :=
  ∀ x kids, Remote.children sA.forest x = some kids →
    ∃ ext, Remote.children sB.forest x = some (kids ++ ext)

/-- `POST /content` with `ancestors=[{id: parentId}]`: create a new page with
a fresh id under the parent; the remote assigns version 1.  `none` models a
remote 404 (parent does not exist). -/
def Remote.create (s : SpaceState) (parentId : Nat) (title body : String) :
    Option (SpaceState × Page) :=
  match Forest.locate [] parentId s.forest with
  | none => none
  | some _ =>
    let q : Page := ⟨s.nextId, title, 1, body⟩
    some (⟨Forest.insertChild parentId q s.forest, s.nextId + 1⟩, q)

/-- `PUT /content/{id}` with a full-body payload (update_page / rename_page):
overwrite title, version and body of the page. -/
def Remote.putContent (s : SpaceState) (pid : Nat) (ti : String) (v : Nat) (b : String) :
    SpaceState :=
  ⟨Forest.setFields pid ti v b s.forest, s.nextId⟩

/-- `PUT /content/{id}` with an `ancestors=[{id: newParentId}]` payload
(move_page): detach the subtree and re-attach it under the new parent, with
the submitted title and version on its root page. -/
def Remote.putMove (s : SpaceState) (pid : Nat) (ti : String) (v : Nat) (newParentId : Nat) :
    SpaceState :=
  match Forest.locate [] pid s.forest with
  | none => s
  | some (.node p cs, _) =>
    let sub : PTree := .node { p with title := ti, version := v } cs
    ⟨Forest.attachTree newParentId sub (Forest.eraseSub pid s.forest), s.nextId⟩

/-- An error surfaced to the HTTP layer via `abort(status, message)`: either a
remote non-success status passed through by `_request` (RemoteError) or a
client-side 404/422. -/
structure HttpError where
  status : Nat
  message : String
deriving Repr, DecidableEq

/-- A raw remote HTTP response as seen by `ConfluenceClient._request`. -/
structure HttpResponse where
  status : Nat
  text : String
deriving Repr, DecidableEq

/-- Embeds the status handling of `ConfluenceClient._request`: the response is
returned unless its status differs from 200, in which case the call aborts
with the remote status code and the response body text. -/
def requestCheck (resp : HttpResponse) : Except HttpError HttpResponse :=
  if resp.status != 200 then .error ⟨resp.status, resp.text⟩ else .ok resp

/-- Modelled from the spec's words: a "2xx success status". -/
def specIs2xx (status : Nat) : Bool := 200 ≤ status && status ≤ 299

/-- A remote 404 surfaced verbatim by `_request` (the body text of the remote
error page is irrelevant to the control flow and modelled as empty). -/
def remote404 : HttpError := ⟨404, ""⟩

/-- The remote calls a client operation can issue, identified by endpoint and
payload. -/
inductive RemoteCall where
  | search (title : String)
  | childList (parentId : Nat)
  | getContent (id : Nat)
  | createContent (parentId : Nat) (title : String) (body : String)
  | putContent (id : Nat) (title : String) (version : Nat) (body : String)
  | putMove (id : Nat) (title : String) (version : Nat) (newParentId : Nat)
  | deleteContent (id : Nat)
deriving Repr, DecidableEq

/-- Whether a remote call mutates remote state (POST/PUT/DELETE). -/
def RemoteCall.isWrite : RemoteCall → Bool
  | .createContent _ _ _ => true
  | .putContent _ _ _ _ => true
  | .putMove _ _ _ _ => true
  | .deleteContent _ => true
  | _ => false

/-- Whether a remote call is a `POST /content` page creation. -/
def RemoteCall.isCreate : RemoteCall → Bool
  | .createContent _ _ _ => true
  | _ => false

/-- Whether a remote call is a `PUT /content/{id}`. -/
def RemoteCall.isPut : RemoteCall → Bool
  | .putContent _ _ _ _ => true
  | .putMove _ _ _ _ => true
  | _ => false

/-- Embeds `ConfluenceClient._is_descendant_of_root`: the page is in scope iff
its id equals the configured root id or some ancestor's id equals it. -/
def isDescendantOfRoot (root : Nat) (pr : Page × List Page) : Bool :=
  pr.1.id == root || pr.2.any (fun a => a.id == root)

/-- Embeds `_search_page_by_title(..., descendants_only=True)`: the first
search result residing under the configured root, if any. -/
def searchPageByTitleDesc (root : Nat) (f : List PTree) (title : String) :
    Option (Page × List Page) :=
  (Remote.search f title).find? (fun pr => isDescendantOfRoot root pr)

/-- Embeds `ConfluenceClient._ensure_page_by_title`: aborts with 404 when no
in-scope page with the title exists. -/
def ensurePageByTitle (root : Nat) (f : List PTree) (title : String) :
    Except HttpError (Page × List Page) :=
  match searchPageByTitleDesc root f title with
  | none => .error ⟨404, "Page not found"⟩
  | some pr => .ok pr

/-- Embeds `ConfluenceClient.get_page_children`: each child with its full
breadcrumb path (ancestor titles + own title + child title). -/
def get_page_children (root : Nat) (f : List PTree) (title : String) :
    Except HttpError (List (String × List String)) :=
  match ensurePageByTitle root f title with
  | .error e => .error e
  | .ok (p, anc) =>
    let path := anc.map Page.title ++ [p.title]
    match Remote.children f p.id with
    | none => .error remote404
    | some kids => .ok (kids.map (fun c => (c.title, path ++ [c.title])))

/-- Embeds `ConfluenceClient.get_page_parent`: `none` when the resolved page's
ancestor list is empty, else the last ancestor's title with the resolved
page's breadcrumb path. -/
def get_page_parent (root : Nat) (f : List PTree) (title : String) :
    Except HttpError (Option (String × List String)) :=
  match ensurePageByTitle root f title with
  | .error e => .error e
  | .ok (p, anc) =>
    match anc.getLast? with
    | none => .ok none
    | some par => .ok (some (par.title, anc.map Page.title ++ [p.title]))

/-- An assembled tree view node, as returned by `get_page_tree`. -/
structure TreeNode where
  title : String
  path : List String
  children : List TreeNode
deriving Repr

mutual
/-- Embeds `ConfluenceClient._build_tree_node`: a leaf with empty children
when the depth bound is exhausted, else one recursive expansion per child with
the bound decremented. -/
def buildTreeNode (depth : Nat) (path : List String) : PTree → TreeNode
  | .node p cs =>
    if depth = 0 then ⟨p.title, path, []⟩
    else ⟨p.title, path, buildTreeForest (depth - 1) path cs⟩

/-- Builds the tree nodes of a list of children, each with its extended
breadcrumb path. -/
def buildTreeForest (depth : Nat) (path : List String) : List PTree → List TreeNode
  | [] => []
  | c :: cs => buildTreeNode depth (path ++ [c.page.title]) c :: buildTreeForest depth path cs
end

/-- The start-page resolution of `ConfluenceClient.get_page_tree`: the given
title when present and non-empty (Python truthiness), else the configured
root fetched by id. -/
def treeStart (root : Nat) (f : List PTree) (startTitle : Option String) :
    Except HttpError (Page × List Page) :=
  if (startTitle.getD "") != "" then ensurePageByTitle root f (startTitle.getD "")
  else
    match Remote.getPage f root with
    | none => .error remote404
    | some pr => .ok pr

/-- Embeds `ConfluenceClient.get_page_tree`. -/
def get_page_tree (root : Nat) (f : List PTree) (startTitle : Option String) (depth : Nat) :
    Except HttpError TreeNode :=
  match treeStart root f startTitle with
  | .error e => .error e
  | .ok (p, anc) =>
    let path := anc.map Page.title ++ [p.title]
    match Forest.locate [] p.id f with
    | none => .error remote404
    | some (t, _) => .ok (buildTreeNode depth path t)

/-- Embeds the prefix joining of `_list_pages_recursive`:
`f"{prefix}/{title}" if prefix else title`. -/
def joinPath (pfx title : String) : String :=
  if pfx == "" then title else pfx ++ "/" ++ title

mutual
/-- The contribution of one page to `_list_pages_recursive`: its slash-joined
path followed by the paths of its descendants. -/
def listPagesTree : PTree → String → List String
  | .node p cs, pfx =>
    let cur := joinPath pfx p.title
    cur :: listPagesForest cs cur

/-- Embeds `ConfluenceClient._list_pages_recursive`: for each child in listing
order, emit its path and then, recursively, the paths of its descendants. -/
def listPagesForest : List PTree → String → List String
  | [], _ => []
  | t :: ts, pfx => listPagesTree t pfx ++ listPagesForest ts pfx
end

/-- Embeds `ConfluenceClient.list_pages`: all descendant paths of the
configured root. -/
def list_pages (root : Nat) (f : List PTree) : Except HttpError (List String) :=
  match Forest.locate [] root f with
  | none => .error remote404
  | some (t, _) => .ok (listPagesForest t.children "")

/-- Embeds Python's `str.strip("/")` on the character list. -/
def stripSlashes (s : String) : String :=
  String.mk (((s.toList.dropWhile (· == '/')).reverse.dropWhile (· == '/')).reverse)

/-- Embeds Python's `str.split("/")` on character lists: split at every slash,
keeping empty segments (`"".split("/") == [""]`). -/
def splitSlashChars : List Char → List (List Char)
  | [] => [[]]
  | c :: rest =>
    if c == '/' then [] :: splitSlashChars rest
    else
      match splitSlashChars rest with
      | [] => [[c]]
      | h :: t => (c :: h) :: t

/-- Embeds Python's `str.split("/")`. -/
def splitPath (s : String) : List String := (splitSlashChars s.toList).map String.mk

/-- Embeds Python's `"/".join(...)`. -/
def joinSegs : List String → String
  | [] => ""
  | [s] => s
  | s :: rest => s ++ "/" ++ joinSegs rest

/-- Embeds `ConfluenceClient.get_page_by_title`: the first child of the parent
whose title matches; aborts when the parent id does not exist remotely. -/
def get_page_by_title (f : List PTree) (title : String) (parentId : Nat) :
    Except HttpError (Option Page) :=
  match Remote.children f parentId with
  | none => .error remote404
  | some kids => .ok (kids.find? (fun p => p.title == title))

/-- The segment-by-segment walk of `get_page_by_path` for multi-segment
paths: at each step look the segment up among the children of the current
parent; absent means NotFound (`none`). -/
def walkParts (f : List PTree) :
    List String → Nat → Option Page → Except HttpError (Option Page) × List RemoteCall
  | [], _, acc => (.ok acc, [])
  | part :: rest, cur, _ =>
    match get_page_by_title f part cur with
    | .error e => (.error e, [.childList cur])
    | .ok none => (.ok none, [.childList cur])
    | .ok (some pg) =>
      let r := walkParts f rest pg.id (some pg)
      (r.1, .childList cur :: r.2)

/-- Embeds `ConfluenceClient.get_page_by_path`: empty normalized paths resolve
to `none` without remote calls; single-segment paths search by title and take
the first in-scope match; multi-segment paths walk from the configured root. -/
def get_page_by_path (root : Nat) (f : List PTree) (path : String) :
    Except HttpError (Option Page) × List RemoteCall :=
  let normalized := stripSlashes path
  if normalized == "" then (.ok none, [])
  else
    match splitPath normalized with
    | [single] =>
      (.ok (((Remote.search f single).find? (fun pr => isDescendantOfRoot root pr)).map Prod.fst),
        [.search single])
    | parts => walkParts f parts root none

/-- The per-segment loop of `ConfluenceClient.resolve_or_create_path`: follow
an existing child with the segment's title, else create the segment as an
empty page under the current parent and continue from the new id. -/
def resolveOrCreateParts :
    List String → SpaceState → Nat → (Except HttpError Nat) × SpaceState × List RemoteCall
  | [], s, cur => (.ok cur, s, [])
  | part :: rest, s, cur =>
    match get_page_by_title s.forest part cur with
    | .error e => (.error e, s, [.childList cur])
    | .ok (some existing) =>
      let r := resolveOrCreateParts rest s existing.id
      (r.1, r.2.1, .childList cur :: r.2.2)
    | .ok none =>
      match Remote.create s cur part "" with
      | none => (.error remote404, s, [.childList cur, .createContent cur part ""])
      | some (s1, q) =>
        let r := resolveOrCreateParts rest s1 q.id
        (r.1, r.2.1, .childList cur :: .createContent cur part "" :: r.2.2)

/-- Embeds `ConfluenceClient.resolve_or_create_path`. -/
def resolve_or_create_path (root : Nat) (path : String) (s : SpaceState) :
    (Except HttpError Nat) × SpaceState × List RemoteCall :=
  let parts := if path == "" then [] else splitPath (stripSlashes path)
  resolveOrCreateParts parts s root

/-- Embeds `ConfluenceClient.update_page`: re-fetch the current version,
increment it, and submit a full-body replacement with the title unchanged. -/
def update_page (s : SpaceState) (page : Page) (newBody : String) :
    (Except HttpError Nat) × SpaceState × List RemoteCall :=
  match Remote.getPage s.forest page.id with
  | none => (.error remote404, s, [.getContent page.id])
  | some (p, _) =>
    let version := p.version + 1
    (.ok version, Remote.putContent s page.id page.title version newBody,
      [.getContent page.id, .putContent page.id page.title version newBody])

/-- The path segments of `create_or_update_page`:
`path.strip("/").split("/")`. -/
def couParts (path : String) : List String := splitPath (stripSlashes path)

/-- The leaf title of `create_or_update_page` (`parts[-1]`). -/
def couLeaf (path : String) : Option String := (couParts path).getLast?

/-- The parent path of `create_or_update_page` (`"/".join(parts[:-1])`). -/
def couParentPath (path : String) : String := joinSegs ((couParts path).dropLast)

/-- The parent resolution of `create_or_update_page`: resolve or create the
parent path when non-empty, else the configured root. -/
def couParentRes (root : Nat) (path : String) (s : SpaceState) :
    (Except HttpError Nat) × SpaceState × List RemoteCall :=
  if couParentPath path != "" then resolve_or_create_path root (couParentPath path) s
  else (.ok root, s, [])

/-- Embeds `ConfluenceClient.create_or_update_page`: update when a page with
the leaf title already exists under the resolved parent, else create fresh;
returns the page id and resulting version. -/
def create_or_update_page (root : Nat) (s : SpaceState) (path body : String) :
    (Except HttpError (Nat × Nat)) × SpaceState × List RemoteCall :=
  match couLeaf path with
  | none => (.error ⟨500, "empty path"⟩, s, [])
  | some pageTitle =>
    let pr := couParentRes root path s
    match pr.1 with
    | .error e => (.error e, pr.2.1, pr.2.2)
    | .ok parentId =>
      let s1 := pr.2.1
      match get_page_by_title s1.forest pageTitle parentId with
      | .error e => (.error e, s1, pr.2.2 ++ [.childList parentId])
      | .ok (some existing) =>
        let u := update_page s1 existing body
        match u.1 with
        | .error e => (.error e, u.2.1, pr.2.2 ++ [.childList parentId] ++ u.2.2)
        | .ok v => (.ok (existing.id, v), u.2.1, pr.2.2 ++ [.childList parentId] ++ u.2.2)
      | .ok none =>
        match Remote.create s1 parentId pageTitle body with
        | none =>
          (.error remote404, s1,
            pr.2.2 ++ [.childList parentId, .createContent parentId pageTitle body])
        | some (s2, q) =>
          (.ok (q.id, 1), s2,
            pr.2.2 ++ [.childList parentId, .createContent parentId pageTitle body])

/-- The result of a successful `move_page`. -/
structure MoveResult where
  title : String
  old_parent_title : Option String
  new_parent_title : String
deriving Repr, DecidableEq

/-- Embeds `ConfluenceClient.move_page`: resolve the page and the new parent
(each must be in scope, else 404), reject with 422 when the page's id occurs
in the new parent's ancestor chain plus the parent itself (cycle), else
re-parent with an incremented version. -/
def move_page (root : Nat) (s : SpaceState) (pageTitle newParentTitle : String) :
    (Except HttpError MoveResult) × SpaceState × List RemoteCall :=
  match ensurePageByTitle root s.forest pageTitle with
  | .error e => (.error e, s, [.search pageTitle])
  | .ok (page, _) =>
    match Remote.getPage s.forest page.id with
    | none => (.error remote404, s, [.search pageTitle, .getContent page.id])
    | some (detailed, detAnc) =>
      if !isDescendantOfRoot root (detailed, detAnc) then
        (.error ⟨404, "Page not found"⟩, s, [.search pageTitle, .getContent page.id])
      else
        let old_parent_title := detAnc.getLast?.map Page.title
        match ensurePageByTitle root s.forest newParentTitle with
        | .error e =>
          (.error e, s, [.search pageTitle, .getContent page.id, .search newParentTitle])
        | .ok (newParent, _) =>
          match Remote.getPage s.forest newParent.id with
          | none =>
            (.error remote404, s,
              [.search pageTitle, .getContent page.id, .search newParentTitle,
                .getContent newParent.id])
          | some (npDet, npAnc) =>
            let calls4 : List RemoteCall :=
              [.search pageTitle, .getContent page.id, .search newParentTitle,
                .getContent newParent.id]
            if !isDescendantOfRoot root (npDet, npAnc) then
              (.error ⟨404, "New parent not found"⟩, s, calls4)
            else
              let chain := npAnc.map Page.id ++ [newParent.id]
              if page.id ∈ chain then
                (.error ⟨422, "Cannot move page into its own subtree"⟩, s, calls4)
              else
                let version := detailed.version + 1
                (.ok ⟨detailed.title, old_parent_title, npDet.title⟩,
                  Remote.putMove s page.id detailed.title version newParent.id,
                  calls4 ++ [.putMove page.id detailed.title version newParent.id])

/-! ### Concrete fixtures used by examples and witnesses -/

/-- A page with version 1 and empty body, for fixtures. -/
def exPage (i : Nat) (t : String) : Page := ⟨i, t, 1, ""⟩

/-- The spec's scenario space: a root with children "Intro" and "Setup",
"Setup" having child "Guide".  The configured root id is 1. -/
def exForest : List PTree :=
  [.node (exPage 1 "Root")
    [.node (exPage 2 "Intro") [],
     .node (exPage 3 "Setup") [.node (exPage 4 "Guide") []]]]

/-- `exForest` with a fresh-id allocator. -/
def exState : SpaceState := ⟨exForest, 10⟩

/-- A space whose configured root (id 1) is nested under a space-level page
"Space" (id 0): the root has a non-empty ancestor chain. -/
def nestedForest : List PTree :=
  [.node (exPage 0 "Space") [.node (exPage 1 "Root") [.node (exPage 2 "A") []]]]

/-- A root with one child having its own grandchild (depth-bounded tree
scenario). -/
def chainForest : List PTree :=
  [.node (exPage 1 "Root") [.node (exPage 2 "Child") [.node (exPage 3 "Grand") []]]]

end Conflagent

namespace Conflagent

/-! ### Helper lemmas -/

/-- Tree construction stops exactly at the depth bound: the child list builder
is a map of the node builder over the children. -/
theorem buildTreeForest_eq_map (d : Nat) (path : List String) (cs : List PTree) :
    buildTreeForest d path cs =
      cs.map (fun c => buildTreeNode d (path ++ [c.page.title]) c) := by
  induction cs with
  | nil => rfl
  | cons c cs ih => simp [buildTreeForest, ih]

/-- `listPagesForest` is a pre-order flattening: each tree contributes its own
path followed by its descendants' paths, siblings in listing order. -/
theorem listPagesForest_eq_flatMap (ts : List PTree) (pfx : String) :
    listPagesForest ts pfx =
      ts.flatMap (fun t =>
        joinPath pfx t.page.title ::
          listPagesForest t.children (joinPath pfx t.page.title)) := by
  induction ts with
  | nil => simp [listPagesForest]
  | cons t ts ih =>
    cases t with
    | node p cs =>
      simp [listPagesForest, listPagesTree, ih, PTree.page, PTree.children]

@[simp] theorem PTree.page_node (p : Page) (cs : List PTree) :
    (PTree.node p cs).page = p := rfl

@[simp] theorem PTree.children_node (p : Page) (cs : List PTree) :
    (PTree.node p cs).children = cs := rfl

/-- Mutual induction over trees and forests. -/
theorem PTree.mutual_ind (P : PTree → Prop) (Q : List PTree → Prop)
    (hnode : ∀ p cs, Q cs → P (.node p cs))
    (hnil : Q [])
    (hcons : ∀ t ts, P t → Q ts → Q (t :: ts)) :
    (∀ t, P t) ∧ (∀ ts, Q ts) := by
  have ht : ∀ t, P t := fun t => @PTree.rec P Q hnode hnil hcons t
  refine ⟨ht, ?_⟩
  intro ts
  induction ts with
  | nil => exact hnil
  | cons t ts ih => exact hcons t ts (ht t) ih

/-- `withAnc` distributes over forest concatenation. -/
theorem Forest.withAnc_append (anc : List Page) (l1 l2 : List PTree) :
    Forest.withAnc anc (l1 ++ l2) = Forest.withAnc anc l1 ++ Forest.withAnc anc l2 := by
  induction l1 with
  | nil => simp [Forest.withAnc]
  | cons t ts ih => simp [Forest.withAnc, ih]

/-- `locate` is `find?` by page id over the pre-order subtree enumeration. -/
theorem locate_eq_find_all :
    (∀ t : PTree, ∀ anc pid, PTree.locate anc pid t =
      (PTree.withAnc anc t).find? (fun pr => pr.1.page.id == pid)) ∧
    (∀ ts : List PTree, ∀ anc pid, Forest.locate anc pid ts =
      (Forest.withAnc anc ts).find? (fun pr => pr.1.page.id == pid)) := by
  refine PTree.mutual_ind _ _ ?_ ?_ ?_
  · intro p cs ih anc pid
    rw [PTree.locate, PTree.withAnc, List.find?_cons]
    by_cases h : p.id == pid
    · simp only [PTree.page] at *
      rw [if_pos h]
      simp [h]
    · simp only [PTree.page] at *
      rw [if_neg h]
      simp only [h]
      exact ih (anc ++ [p]) pid
  · intro anc pid
    rfl
  · intro t ts iht ihts anc pid
    rw [Forest.locate, Forest.withAnc, List.find?_append, iht, ihts]
    cases (PTree.withAnc anc t).find? (fun pr => pr.1.page.id == pid) with
    | none => simp [Option.or]
    | some r => simp [Option.or]

/-- Forest-level view of `locate_eq_find_all`. -/
theorem Forest.locate_eq_find (anc : List Page) (pid : Nat) (f : List PTree) :
    Forest.locate anc pid f =
      (Forest.withAnc anc f).find? (fun pr => pr.1.page.id == pid) :=
  locate_eq_find_all.2 f anc pid

/-- The ids of the pre-order subtree enumeration are exactly `Forest.ids`. -/
theorem withAnc_map_id_all :
    (∀ t : PTree, ∀ anc, (PTree.withAnc anc t).map (fun pr => pr.1.page.id) = t.ids) ∧
    (∀ ts : List PTree, ∀ anc,
      (Forest.withAnc anc ts).map (fun pr => pr.1.page.id) = Forest.ids ts) := by
  refine PTree.mutual_ind _ _ ?_ ?_ ?_
  · intro p cs ih anc
    have h1 : PTree.withAnc anc (.node p cs) =
        (.node p cs, anc) :: Forest.withAnc (anc ++ [p]) cs := rfl
    rw [h1, List.map_cons, ih (anc ++ [p])]
    rfl
  · intro anc
    rfl
  · intro t ts iht ihts anc
    simp only [Forest.withAnc, Forest.ids, List.map_append, iht, ihts]

/-- A member tree of a forest occurs in the enumeration with the ambient
ancestor chain. -/
theorem mem_withAnc_self (anc : List Page) (ts : List PTree) (t : PTree) (ht : t ∈ ts) :
    (t, anc) ∈ Forest.withAnc anc ts := by
  induction ts with
  | nil => cases ht
  | cons u ts ih =>
    rcases List.mem_cons.mp ht with h | h
    · subst h
      cases t with
      | node p cs => rw [Forest.withAnc, PTree.withAnc]; exact List.mem_append_left _ (.head _)
    · exact List.mem_append_right _ (ih h)

/-- The children of an enumerated subtree are enumerated with the extended
ancestor chain. -/
theorem withAnc_children_mem_all :
    (∀ t0 : PTree, ∀ anc0 (t : PTree) anc, (t, anc) ∈ PTree.withAnc anc0 t0 →
      ∀ c ∈ t.children, (c, anc ++ [t.page]) ∈ PTree.withAnc anc0 t0) ∧
    (∀ ts : List PTree, ∀ anc0 (t : PTree) anc, (t, anc) ∈ Forest.withAnc anc0 ts →
      ∀ c ∈ t.children, (c, anc ++ [t.page]) ∈ Forest.withAnc anc0 ts) := by
  refine PTree.mutual_ind _ _ ?_ ?_ ?_
  · intro p cs ih anc0 t anc hm c hc
    rw [show PTree.withAnc anc0 (.node p cs) =
        (.node p cs, anc0) :: Forest.withAnc (anc0 ++ [p]) cs from rfl] at hm ⊢
    rcases List.mem_cons.mp hm with h | h
    · rw [Prod.mk.injEq] at h
      obtain ⟨ht, hanc⟩ := h
      subst ht
      subst hanc
      refine List.mem_cons_of_mem _ ?_
      have hc' : c ∈ cs := by simpa using hc
      simpa using mem_withAnc_self (anc ++ [p]) cs c hc'
    · exact List.mem_cons_of_mem _ (ih (anc0 ++ [p]) t anc h c hc)
  · intro anc0 t anc hm
    cases hm
  · intro u ts ihu ihts anc0 t anc hm c hc
    rw [Forest.withAnc] at hm ⊢
    rcases List.mem_append.mp hm with h | h
    · exact List.mem_append_left _ (ihu anc0 t anc h c hc)
    · exact List.mem_append_right _ (ihts anc0 t anc h c hc)

/-- Every enumerated ancestor chain extends the ambient chain. -/
theorem withAnc_extends_all :
    (∀ t0 : PTree, ∀ anc0 (t : PTree) anc, (t, anc) ∈ PTree.withAnc anc0 t0 →
      ∃ ext, anc = anc0 ++ ext) ∧
    (∀ ts : List PTree, ∀ anc0 (t : PTree) anc, (t, anc) ∈ Forest.withAnc anc0 ts →
      ∃ ext, anc = anc0 ++ ext) := by
  refine PTree.mutual_ind _ _ ?_ ?_ ?_
  · intro p cs ih anc0 t anc hm
    rw [show PTree.withAnc anc0 (.node p cs) =
        (.node p cs, anc0) :: Forest.withAnc (anc0 ++ [p]) cs from rfl] at hm
    rcases List.mem_cons.mp hm with h | h
    · rw [Prod.mk.injEq] at h
      exact ⟨[], by simp [h.2]⟩
    · rcases ih (anc0 ++ [p]) t anc h with ⟨ext, hext⟩
      exact ⟨p :: ext, by simpa using hext⟩
  · intro anc0 t anc hm
    cases hm
  · intro u ts ihu ihts anc0 t anc hm
    rcases List.mem_append.mp hm with h | h
    · exact ihu anc0 t anc h
    · exact ihts anc0 t anc h

/-- Every enumerated entry is either a top entry of the forest with the
ambient chain, or a child of another enumerated entry with the parent's chain
extended by the parent page. -/
theorem withAnc_parent_all :
    (∀ t0 : PTree, ∀ anc0 (t : PTree) anc, (t, anc) ∈ PTree.withAnc anc0 t0 →
      (anc = anc0 ∧ t = t0) ∨
      ∃ tp as_, (tp, as_) ∈ PTree.withAnc anc0 t0 ∧ anc = as_ ++ [tp.page] ∧ t ∈ tp.children) ∧
    (∀ ts : List PTree, ∀ anc0 (t : PTree) anc, (t, anc) ∈ Forest.withAnc anc0 ts →
      (anc = anc0 ∧ t ∈ ts) ∨
      ∃ tp as_, (tp, as_) ∈ Forest.withAnc anc0 ts ∧ anc = as_ ++ [tp.page] ∧ t ∈ tp.children) := by
  refine PTree.mutual_ind _ _ ?_ ?_ ?_
  · intro p cs ih anc0 t anc hm
    rw [show PTree.withAnc anc0 (.node p cs) =
        (.node p cs, anc0) :: Forest.withAnc (anc0 ++ [p]) cs from rfl] at hm
    rcases List.mem_cons.mp hm with h | h
    · rw [Prod.mk.injEq] at h
      exact Or.inl ⟨h.2, h.1⟩
    · rcases ih (anc0 ++ [p]) t anc h with ⟨hanc, ht⟩ | ⟨tp, as_, hmem, hanc, hch⟩
      · refine Or.inr ⟨.node p cs, anc0, ?_, ?_, ?_⟩
        · rw [show PTree.withAnc anc0 (.node p cs) =
            (.node p cs, anc0) :: Forest.withAnc (anc0 ++ [p]) cs from rfl]
          exact .head _
        · simpa using hanc
        · simpa using ht
      · refine Or.inr ⟨tp, as_, ?_, hanc, hch⟩
        rw [show PTree.withAnc anc0 (.node p cs) =
            (.node p cs, anc0) :: Forest.withAnc (anc0 ++ [p]) cs from rfl]
        exact List.mem_cons_of_mem _ hmem
  · intro anc0 t anc hm
    cases hm
  · intro u ts ihu ihts anc0 t anc hm
    rw [Forest.withAnc] at hm
    rcases List.mem_append.mp hm with h | h
    · rcases ihu anc0 t anc h with ⟨hanc, ht⟩ | ⟨tp, as_, hmem, hanc, hch⟩
      · exact Or.inl ⟨hanc, ht ▸ List.mem_cons_self _ _⟩
      · exact Or.inr ⟨tp, as_, by rw [Forest.withAnc]; exact List.mem_append_left _ hmem,
          hanc, hch⟩
    · rcases ihts anc0 t anc h with ⟨hanc, ht⟩ | ⟨tp, as_, hmem, hanc, hch⟩
      · exact Or.inl ⟨hanc, List.mem_cons_of_mem _ ht⟩
      · exact Or.inr ⟨tp, as_, by rw [Forest.withAnc]; exact List.mem_append_right _ hmem,
          hanc, hch⟩

/-- The enumeration of an enumerated subtree is contained in the ambient
enumeration. -/
theorem withAnc_sub_all :
    (∀ t0 : PTree, ∀ anc0 (t : PTree) anc, (t, anc) ∈ PTree.withAnc anc0 t0 →
      ∀ e ∈ PTree.withAnc anc t, e ∈ PTree.withAnc anc0 t0) ∧
    (∀ ts : List PTree, ∀ anc0 (t : PTree) anc, (t, anc) ∈ Forest.withAnc anc0 ts →
      ∀ e ∈ PTree.withAnc anc t, e ∈ Forest.withAnc anc0 ts) := by
  refine PTree.mutual_ind _ _ ?_ ?_ ?_
  · intro p cs ih anc0 t anc hm e he
    rw [show PTree.withAnc anc0 (.node p cs) =
        (.node p cs, anc0) :: Forest.withAnc (anc0 ++ [p]) cs from rfl] at hm
    rcases List.mem_cons.mp hm with h | h
    · rw [Prod.mk.injEq] at h
      rw [h.1, h.2] at he
      exact he
    · rw [show PTree.withAnc anc0 (.node p cs) =
        (.node p cs, anc0) :: Forest.withAnc (anc0 ++ [p]) cs from rfl]
      exact List.mem_cons_of_mem _ (ih (anc0 ++ [p]) t anc h e he)
  · intro anc0 t anc hm
    cases hm
  · intro u ts ihu ihts anc0 t anc hm e he
    rw [Forest.withAnc] at hm ⊢
    rcases List.mem_append.mp hm with h | h
    · exact List.mem_append_left _ (ihu anc0 t anc h e he)
    · exact List.mem_append_right _ (ihts anc0 t anc h e he)

/-- `find?` returns a given member when it satisfies the predicate and is the
only member doing so. -/
theorem find?_eq_of_unique {α : Type} (l : List α) (p : α → Bool) (a : α)
    (ha : a ∈ l) (hpa : p a = true) (huniq : ∀ b ∈ l, p b = true → b = a) :
    l.find? p = some a := by
  cases hf : l.find? p with
  | none =>
    rw [List.find?_eq_none] at hf
    exact absurd hpa (hf a ha)
  | some b =>
    exact congrArg some (huniq b (List.mem_of_find?_eq_some hf) (List.find?_some hf))

/-- In a well-formed space, enumerated entries are determined by their page
id. -/
theorem withAnc_entry_unique (f : List PTree) (h : NodupIds f)
    {e1 e2 : PTree × List Page}
    (h1 : e1 ∈ Forest.withAnc [] f) (h2 : e2 ∈ Forest.withAnc [] f)
    (hid : e1.1.page.id = e2.1.page.id) : e1 = e2 := by
  have hmap : ((Forest.withAnc [] f).map (fun pr => pr.1.page.id)).Nodup := by
    rw [withAnc_map_id_all.2 f []]
    exact h
  exact List.inj_on_of_nodup_map hmap h1 h2 hid

/-- In a well-formed space, `locate` finds exactly the enumerated entry of a
page id. -/
theorem Forest.locate_of_mem (f : List PTree) (h : NodupIds f) (t : PTree) (anc : List Page)
    (hm : (t, anc) ∈ Forest.withAnc [] f) :
    Forest.locate [] t.page.id f = some (t, anc) := by
  rw [Forest.locate_eq_find]
  refine find?_eq_of_unique _ _ _ hm (by simp) ?_
  intro b hb hpb
  exact withAnc_entry_unique f h hb hm (by simpa using hpb)

/-- A successful `locate` yields an enumerated entry whose page carries the
requested id. -/
theorem Forest.locate_mem {pid : Nat} {f : List PTree} {t : PTree} {anc : List Page}
    (h : Forest.locate [] pid f = some (t, anc)) :
    (t, anc) ∈ Forest.withAnc [] f ∧ t.page.id = pid := by
  rw [Forest.locate_eq_find] at h
  exact ⟨List.mem_of_find?_eq_some h, by simpa using List.find?_some h⟩

/-- `locate` fails exactly on absent ids. -/
theorem Forest.locate_eq_none_iff (anc : List Page) (pid : Nat) (f : List PTree) :
    Forest.locate anc pid f = none ↔ pid ∉ Forest.ids f := by
  rw [Forest.locate_eq_find, List.find?_eq_none]
  constructor
  · intro h hmem
    rw [← withAnc_map_id_all.2 f anc] at hmem
    rcases List.mem_map.mp hmem with ⟨e, he, hid⟩
    exact h e he (by simpa using hid)
  · intro h e he hpe
    apply h
    rw [← withAnc_map_id_all.2 f anc]
    exact List.mem_map.mpr ⟨e, he, by simpa using hpe⟩

/-- In a well-formed space, the child of a located page is located with the
parent appended to the chain. -/
theorem Forest.locate_child (f : List PTree) (h : NodupIds f) {pid : Nat}
    {t : PTree} {anc : List Page} {c : PTree}
    (hl : Forest.locate [] pid f = some (t, anc)) (hc : c ∈ t.children) :
    Forest.locate [] c.page.id f = some (c, anc ++ [t.page]) := by
  have hm := (Forest.locate_mem hl).1
  have hcm := withAnc_children_mem_all.2 f [] t anc hm c hc
  exact Forest.locate_of_mem f h c _ hcm

/-- `Forest.ids` distributes over concatenation. -/
theorem Forest.ids_append (l1 l2 : List PTree) :
    Forest.ids (l1 ++ l2) = Forest.ids l1 ++ Forest.ids l2 := by
  induction l1 with
  | nil => simp [Forest.ids]
  | cons t ts ih => simp [Forest.ids, ih]

/-- `locate` over a concatenated forest tries the left part first. -/
theorem Forest.locate_append (anc : List Page) (pid : Nat) (l1 l2 : List PTree) :
    Forest.locate anc pid (l1 ++ l2) =
      (Forest.locate anc pid l1).or (Forest.locate anc pid l2) := by
  rw [Forest.locate_eq_find, Forest.locate_eq_find, Forest.locate_eq_find,
    Forest.withAnc_append, List.find?_append]

/-- Insertion leaves the root page of a tree unchanged. -/
theorem insertChild_page (pid : Nat) (q : Page) (t : PTree) :
    (PTree.insertChild pid q t).page = t.page := by
  cases t with
  | node p cs => by_cases h : p.id == pid <;> simp [PTree.insertChild, h]

/-- Insertion leaves the root pages of a forest unchanged. -/
theorem insertF_map_page (pid : Nat) (q : Page) (cs : List PTree) :
    (Forest.insertChild pid q cs).map PTree.page = cs.map PTree.page := by
  induction cs with
  | nil => rfl
  | cons t ts ih => simp [Forest.insertChild, insertChild_page, ih]

/-- The direct-children page listing after insertion: unchanged except for
the targeted parent, whose listing gains the new page at the end. -/
theorem insertChild_children_pages (pid : Nat) (q : Page) (t : PTree) :
    (PTree.insertChild pid q t).children.map PTree.page =
      t.children.map PTree.page ++ (if t.page.id == pid then [q] else []) := by
  cases t with
  | node p cs =>
    by_cases h : p.id == pid <;> simp [PTree.insertChild, h, insertF_map_page]

/-- Master insertion lemma: locating any id other than the new page's id in
the inserted forest finds the old entry with the insertion applied inside its
subtree and the ancestor chain unchanged. -/
theorem locate_insert_all :
    (∀ t : PTree, ∀ anc pid q x, x ≠ q.id →
      PTree.locate anc x (PTree.insertChild pid q t) =
        (PTree.locate anc x t).map (fun r => (PTree.insertChild pid q r.1, r.2))) ∧
    (∀ ts : List PTree, ∀ anc pid q x, x ≠ q.id →
      Forest.locate anc x (Forest.insertChild pid q ts) =
        (Forest.locate anc x ts).map (fun r => (PTree.insertChild pid q r.1, r.2))) := by
  refine PTree.mutual_ind _ _ ?_ ?_ ?_
  · intro p cs ih anc pid q x hx
    have hq : (q.id == x) = false := beq_eq_false_iff_ne.mpr (fun hh => hx hh.symm)
    by_cases hp : p.id == pid
    · by_cases hpx : p.id == x
      · simp [PTree.insertChild, hp, PTree.locate, hpx]
      · simp only [PTree.insertChild, hp, if_true, PTree.locate, hpx, if_false,
          Bool.false_eq_true]
        rw [Forest.locate_append, ih (anc ++ [p]) pid q x hx]
        have hleaf : Forest.locate (anc ++ [p]) x [PTree.node q []] = none := by
          simp [Forest.locate, PTree.locate, hq]
        rw [hleaf]
        cases PTree.locate (anc ++ [p]) x (PTree.node p cs) with
        | none =>
          cases hcs : Forest.locate (anc ++ [p]) x cs with
          | none => simp
          | some r => simp
        | some r =>
          cases hcs : Forest.locate (anc ++ [p]) x cs with
          | none => simp
          | some r2 => simp
    · by_cases hpx : p.id == x
      · simp [PTree.insertChild, hp, PTree.locate, hpx]
      · simp only [PTree.insertChild, hp, if_false, PTree.locate, hpx,
          Bool.false_eq_true]
        exact ih (anc ++ [p]) pid q x hx
  · intro anc pid q x hx
    rfl
  · intro t ts iht ihts anc pid q x hx
    simp only [Forest.insertChild, Forest.locate]
    rw [iht anc pid q x hx]
    cases ht : PTree.locate anc x t with
    | none => simpa using ihts anc pid q x hx
    | some r => simp

/-- Ids after insertion come from the old forest or are the new page's id. -/
theorem mem_ids_insert_all :
    (∀ t : PTree, ∀ pid q x, x ∈ (PTree.insertChild pid q t).ids →
      x ∈ t.ids ∨ x = q.id) ∧
    (∀ ts : List PTree, ∀ pid q x, x ∈ Forest.ids (Forest.insertChild pid q ts) →
      x ∈ Forest.ids ts ∨ x = q.id) := by
  refine PTree.mutual_ind _ _ ?_ ?_ ?_
  · intro p cs ih pid q x hmem
    by_cases hp : p.id == pid
    · simp only [PTree.insertChild, hp, if_true, PTree.ids, Forest.ids_append] at hmem
      rcases List.mem_cons.mp hmem with h | h
      · exact Or.inl (h ▸ List.mem_cons_self _ _)
      · rcases List.mem_append.mp h with h2 | h2
        · rcases ih pid q x h2 with h3 | h3
          · exact Or.inl (List.mem_cons_of_mem _ h3)
          · exact Or.inr h3
        · simp only [Forest.ids, PTree.ids, List.append_nil] at h2
          rcases List.mem_cons.mp h2 with h3 | h3
          · exact Or.inr h3
          · cases h3
    · simp only [PTree.insertChild, hp, if_false, PTree.ids,
        Bool.false_eq_true] at hmem
      rcases List.mem_cons.mp hmem with h | h
      · exact Or.inl (h ▸ List.mem_cons_self _ _)
      · rcases ih pid q x h with h3 | h3
        · exact Or.inl (List.mem_cons_of_mem _ h3)
        · exact Or.inr h3
  · intro pid q x hmem
    cases hmem
  · intro t ts iht ihts pid q x hmem
    simp only [Forest.insertChild, Forest.ids] at hmem
    rcases List.mem_append.mp hmem with h | h
    · rcases iht pid q x h with h3 | h3
      · exact Or.inl (List.mem_append_left _ h3)
      · exact Or.inr h3
    · rcases ihts pid q x h with h3 | h3
      · exact Or.inl (List.mem_append_right _ h3)
      · exact Or.inr h3

/-- Inserting under an absent parent id changes nothing. -/
theorem insert_noop_all :
    (∀ t : PTree, ∀ pid q, pid ∉ t.ids → PTree.insertChild pid q t = t) ∧
    (∀ ts : List PTree, ∀ pid q, pid ∉ Forest.ids ts →
      Forest.insertChild pid q ts = ts) := by
  refine PTree.mutual_ind _ _ ?_ ?_ ?_
  · intro p cs ih pid q hmem
    simp only [PTree.ids, List.mem_cons, not_or] at hmem
    have hp : (p.id == pid) = false := beq_eq_false_iff_ne.mpr (fun hh => hmem.1 hh.symm)
    simp [PTree.insertChild, hp, ih pid q hmem.2]
  · intro pid q hmem
    rfl
  · intro t ts iht ihts pid q hmem
    simp only [Forest.ids, List.mem_append, not_or] at hmem
    simp [Forest.insertChild, iht pid q hmem.1, ihts pid q hmem.2]

/-- In a well-formed forest, insertion under a present parent id adds exactly
the new page's id. -/
theorem ids_insert_perm_all :
    (∀ t : PTree, ∀ pid q, t.ids.Nodup → pid ∈ t.ids →
      (PTree.insertChild pid q t).ids.Perm (t.ids ++ [q.id])) ∧
    (∀ ts : List PTree, ∀ pid q, (Forest.ids ts).Nodup → pid ∈ Forest.ids ts →
      (Forest.ids (Forest.insertChild pid q ts)).Perm (Forest.ids ts ++ [q.id])) := by
  refine PTree.mutual_ind _ _ ?_ ?_ ?_
  · intro p cs ih pid q hnod hpid
    simp only [PTree.ids] at hnod hpid ⊢
    have hnodcs : (Forest.ids cs).Nodup := hnod.of_cons
    have hpnotin : p.id ∉ Forest.ids cs := (List.nodup_cons.mp hnod).1
    by_cases hp : p.id == pid
    · have hpe : p.id = pid := by simpa using hp
      have hnotcs : pid ∉ Forest.ids cs := hpe ▸ hpnotin
      simp only [PTree.insertChild, hp, if_true, PTree.ids, Forest.ids_append,
        insert_noop_all.2 cs pid q hnotcs]
      simp [Forest.ids, PTree.ids]
    · have hpe : p.id ≠ pid := by simpa using hp
      have hmem : pid ∈ Forest.ids cs := by
        rcases List.mem_cons.mp hpid with h | h
        · exact absurd h.symm hpe
        · exact h
      simp only [PTree.insertChild, hp, if_false, PTree.ids, Bool.false_eq_true]
      exact (ih pid q hnodcs hmem).cons p.id
  · intro pid q hnod hpid
    cases hpid
  · intro t ts iht ihts pid q hnod hpid
    simp only [Forest.ids] at hnod hpid ⊢
    rw [List.nodup_append] at hnod
    obtain ⟨hn1, hn2, hdisj⟩ := hnod
    rcases List.mem_append.mp hpid with h | h
    · have hnotts : pid ∉ Forest.ids ts := fun hc => hdisj h hc
      rw [insert_noop_all.2 ts pid q hnotts]
      have h1 : ((PTree.insertChild pid q t).ids ++ Forest.ids ts).Perm
          ((t.ids ++ [q.id]) ++ Forest.ids ts) := (iht pid q hn1 h).append_right _
      have h2 : ((t.ids ++ [q.id]) ++ Forest.ids ts).Perm
          (t.ids ++ Forest.ids ts ++ [q.id]) := by
        rw [List.append_assoc, List.append_assoc]
        exact List.Perm.append_left _ List.perm_append_comm
      exact h1.trans h2
    · have hnott : pid ∉ t.ids := fun hc => hdisj hc h
      rw [insert_noop_all.1 t pid q hnott]
      have h1 : (t.ids ++ Forest.ids (Forest.insertChild pid q ts)).Perm
          (t.ids ++ (Forest.ids ts ++ [q.id])) :=
        List.Perm.append_left _ (ihts pid q hn2 h)
      rw [← List.append_assoc] at h1
      exact h1

/-- Insertion of a fresh page preserves well-formedness. -/
theorem NodupIds_insert (f : List PTree) (pid : Nat) (q : Page)
    (h : NodupIds f) (hq : q.id ∉ Forest.ids f) :
    NodupIds (Forest.insertChild pid q f) := by
  by_cases hp : pid ∈ Forest.ids f
  · have hperm := ids_insert_perm_all.2 f pid q h hp
    rw [NodupIds, hperm.nodup_iff]
    rw [List.nodup_append]
    exact ⟨h, List.nodup_singleton _, fun a ha hb => by
      simp only [List.mem_singleton] at hb
      exact hq (hb ▸ ha)⟩
  · rw [NodupIds, insert_noop_all.2 f pid q hp]
    exact h

/-- In a well-formed forest, the freshly inserted page is located as a leaf
child of the targeted parent, with the parent appended to its chain. -/
theorem locate_insert_new_all :
    (∀ t : PTree, ∀ anc0 pid q, t.ids.Nodup → q.id ∉ t.ids →
      PTree.locate anc0 q.id (PTree.insertChild pid q t) =
        (PTree.locate anc0 pid t).map (fun r => (PTree.node q [], r.2 ++ [r.1.page]))) ∧
    (∀ ts : List PTree, ∀ anc0 pid q, (Forest.ids ts).Nodup → q.id ∉ Forest.ids ts →
      Forest.locate anc0 q.id (Forest.insertChild pid q ts) =
        (Forest.locate anc0 pid ts).map (fun r => (PTree.node q [], r.2 ++ [r.1.page]))) := by
  refine PTree.mutual_ind _ _ ?_ ?_ ?_
  · intro p cs ih anc0 pid q hnod hq
    simp only [PTree.ids, List.mem_cons, not_or] at hq
    have hnodcs : (Forest.ids cs).Nodup := hnod.of_cons
    have hqp : (p.id == q.id) = false := beq_eq_false_iff_ne.mpr (fun hh => hq.1 hh.symm)
    by_cases hp : p.id == pid
    · have hpe : p.id = pid := by simpa using hp
      have hnotcs : pid ∉ Forest.ids cs := hpe ▸ (List.nodup_cons.mp hnod).1
      simp only [PTree.insertChild, hp, if_true,
        insert_noop_all.2 cs pid q hnotcs, PTree.locate, hqp, Bool.false_eq_true,
        if_false]
      rw [Forest.locate_append]
      rw [(Forest.locate_eq_none_iff (anc0 ++ [p]) q.id cs).mpr hq.2]
      simp [Forest.locate, PTree.locate]
    · simp only [PTree.insertChild, hp, if_false, PTree.locate, hqp,
        Bool.false_eq_true]
      exact ih (anc0 ++ [p]) pid q hnodcs hq.2
  · intro anc0 pid q hnod hq
    rfl
  · intro t ts iht ihts anc0 pid q hnod hq
    simp only [Forest.ids] at hnod hq
    rw [List.nodup_append] at hnod
    obtain ⟨hn1, hn2, _⟩ := hnod
    simp only [List.mem_append, not_or] at hq
    simp only [Forest.insertChild, Forest.locate]
    rw [iht anc0 pid q hn1 hq.1]
    cases ht : PTree.locate anc0 pid t with
    | none => simpa using ihts anc0 pid q hn2 hq.2
    | some r => simp

/-- A remote page creation assigns the allocator id at version 1, inserts it
under the parent and preserves well-formedness and freshness. -/
theorem create_spec (s : SpaceState) (pid : Nat) (ti b : String)
    (s1 : SpaceState) (qp : Page)
    (h : Remote.create s pid ti b = some (s1, qp))
    (hNod : NodupIds s.forest) (hF : Fresh s) :
    qp = ⟨s.nextId, ti, 1, b⟩ ∧
    s1.forest = Forest.insertChild pid qp s.forest ∧
    s1.nextId = s.nextId + 1 ∧
    NodupIds s1.forest ∧ Fresh s1 ∧ qp.id ∉ Forest.ids s.forest := by
  unfold Remote.create at h
  cases hl : Forest.locate [] pid s.forest with
  | none => rw [hl] at h; cases h
  | some r =>
    rw [hl] at h
    simp only [Option.some.injEq, Prod.mk.injEq] at h
    obtain ⟨hs1, hqp⟩ := h
    subst hs1
    subst hqp
    have hfresh : s.nextId ∉ Forest.ids s.forest := fun hc =>
      absurd (hF _ hc) (lt_irrefl _)
    refine ⟨rfl, rfl, rfl, ?_, ?_, hfresh⟩
    · exact NodupIds_insert s.forest pid _ hNod hfresh
    · intro x hx
      rcases mem_ids_insert_all.2 s.forest pid _ x hx with h3 | h3
      · exact Nat.lt_succ_of_lt (hF x h3)
      · simp only [h3]
        exact Nat.lt_succ_self _

/-- A body-payload PUT rewrites the targeted node's page fields and recurses
into the children. -/
theorem setFields_node (pid : Nat) (ti : String) (v : Nat) (b : String)
    (p : Page) (cs : List PTree) :
    PTree.setFields pid ti v b (.node p cs) =
      .node (pageSet pid ti v b p) (Forest.setFields pid ti v b cs) := by
  by_cases h : p.id == pid <;> simp [PTree.setFields, pageSet, h]

@[simp] theorem pageSet_id (pid : Nat) (ti : String) (v : Nat) (b : String) (p : Page) :
    (pageSet pid ti v b p).id = p.id := by
  unfold pageSet
  split <;> rfl

/-- Master field-overwrite lemma: a body-payload PUT does not move any page;
locating any id afterwards finds the same entry with the overwrite applied to
its subtree and ancestor chain. -/
theorem locate_set_all :
    (∀ t : PTree, ∀ pid ti v b anc x,
      PTree.locate (anc.map (pageSet pid ti v b)) x (PTree.setFields pid ti v b t) =
        (PTree.locate anc x t).map
          (fun r => (PTree.setFields pid ti v b r.1, r.2.map (pageSet pid ti v b)))) ∧
    (∀ ts : List PTree, ∀ pid ti v b anc x,
      Forest.locate (anc.map (pageSet pid ti v b)) x (Forest.setFields pid ti v b ts) =
        (Forest.locate anc x ts).map
          (fun r => (PTree.setFields pid ti v b r.1, r.2.map (pageSet pid ti v b)))) := by
  refine PTree.mutual_ind _ _ ?_ ?_ ?_
  · intro p cs ih pid ti v b anc x
    rw [setFields_node]
    by_cases hpx : p.id == x
    · have h1 : ((pageSet pid ti v b p).id == x) = true := by
        rw [pageSet_id]; exact hpx
      simp [PTree.locate, hpx, h1, setFields_node]
    · have h1 : ((pageSet pid ti v b p).id == x) = false := by
        rw [pageSet_id]; simpa using hpx
      simp only [PTree.locate, hpx, h1, Bool.false_eq_true, if_false]
      have := ih pid ti v b (anc ++ [p]) x
      simpa using this
  · intro pid ti v b anc x
    rfl
  · intro t ts iht ihts pid ti v b anc x
    simp only [Forest.setFields, Forest.locate]
    rw [iht pid ti v b anc x]
    cases ht : PTree.locate anc x t with
    | none => simpa using ihts pid ti v b anc x
    | some r => simp

/-- A body-payload PUT leaves all page ids unchanged. -/
theorem ids_set_all :
    (∀ t : PTree, ∀ pid ti v b, (PTree.setFields pid ti v b t).ids = t.ids) ∧
    (∀ ts : List PTree, ∀ pid ti v b,
      Forest.ids (Forest.setFields pid ti v b ts) = Forest.ids ts) := by
  refine PTree.mutual_ind _ _ ?_ ?_ ?_
  · intro p cs ih pid ti v b
    rw [setFields_node]
    simp [PTree.ids, ih]
  · intro pid ti v b
    rfl
  · intro t ts iht ihts pid ti v b
    simp [Forest.setFields, Forest.ids, iht, ihts]

/-- Reading a page back after a body-payload PUT shows the submitted title,
version and body. -/
theorem getPage_putContent (s : SpaceState) (pid : Nat) (ti : String) (v : Nat)
    (b : String) (p : Page) (anc : List Page)
    (h : Remote.getPage s.forest pid = some (p, anc)) :
    Remote.getPage (Remote.putContent s pid ti v b).forest pid =
      some ({ p with title := ti, version := v, body := b },
        anc.map (pageSet pid ti v b)) := by
  unfold Remote.getPage at h ⊢
  cases hl : Forest.locate [] pid s.forest with
  | none => rw [hl] at h; cases h
  | some r =>
    obtain ⟨t0, anc0⟩ := r
    rw [hl] at h
    simp only [Option.map_some', Option.some.injEq, Prod.mk.injEq] at h
    obtain ⟨hp, hanc⟩ := h
    have hid : t0.page.id = pid := (Forest.locate_mem hl).2
    have hloc := locate_set_all.2 s.forest pid ti v b [] pid
    simp only [List.map_nil] at hloc
    show (Forest.locate [] pid (Forest.setFields pid ti v b s.forest)).map
      (fun r => (r.1.page, r.2)) = _
    rw [hloc, hl]
    cases t0 with
    | node pp cs =>
      simp only [PTree.page_node] at hp hid
      subst hp
      simp only [Option.map_some']
      rw [setFields_node]
      simp only [PTree.page_node, Option.some.injEq, Prod.mk.injEq]
      constructor
      · simp [pageSet, hid]
      · rw [hanc]

/-- Unpacking a successful `_ensure_page_by_title`: the returned page is a
title match enumerated with its true ancestor chain, and it passes the
root-containment check. -/
theorem ensure_ok_facts (root : Nat) (f : List PTree) (title : String)
    (p : Page) (anc : List Page)
    (h : ensurePageByTitle root f title = .ok (p, anc)) :
    ∃ t : PTree, (t, anc) ∈ Forest.withAnc [] f ∧ t.page = p ∧ p.title = title ∧
      isDescendantOfRoot root (p, anc) = true := by
  unfold ensurePageByTitle searchPageByTitleDesc at h
  cases hf : (Remote.search f title).find? (fun pr => isDescendantOfRoot root pr) with
  | none => rw [hf] at h; cases h
  | some pr =>
    rw [hf] at h
    have hpr : pr = (p, anc) := by
      cases h
      rfl
    subst hpr
    have hmem := List.mem_of_find?_eq_some hf
    have hdesc := List.find?_some hf
    unfold Remote.search at hmem
    rcases List.mem_map.mp hmem with ⟨e, he, hproj⟩
    have hfil := List.mem_filter.mp he
    have htitle : e.1.page.title = title := by simpa using hfil.2
    have hp1 : e.1.page = p := congrArg Prod.fst hproj
    have hp2 : e.2 = anc := congrArg Prod.snd hproj
    refine ⟨e.1, ?_, hp1, ?_, hdesc⟩
    · rw [← hp2]
      exact hfil.1
    · rw [← hp1]
      exact htitle

/-- A successful `_ensure_page_by_title` determines a successful remote fetch
of the same page with the same chain, in a well-formed space. -/
theorem ensure_ok_getPage (root : Nat) (f : List PTree) (title : String)
    (p : Page) (anc : List Page) (hN : NodupIds f)
    (h : ensurePageByTitle root f title = .ok (p, anc)) :
    Remote.getPage f p.id = some (p, anc) := by
  rcases ensure_ok_facts root f title p anc h with ⟨t, hmem, hpage, _, _⟩
  have hloc : Forest.locate [] p.id f = some (t, anc) := by
    rw [← hpage]
    exact Forest.locate_of_mem f hN t anc hmem
  unfold Remote.getPage
  rw [hloc]
  simp [hpage]

/-- Inverting a successful child listing. -/
theorem children_inv {f : List PTree} {pid : Nat} {kids : List Page}
    (h : Remote.children f pid = some kids) :
    ∃ t anc, Forest.locate [] pid f = some (t, anc) ∧
      kids = t.children.map PTree.page := by
  unfold Remote.children at h
  cases hl : Forest.locate [] pid f with
  | none => rw [hl] at h; cases h
  | some r =>
    obtain ⟨t0, anc0⟩ := r
    rw [hl] at h
    refine ⟨t0, anc0, rfl, ?_⟩
    simp only [Option.map_some', Option.some.injEq] at h
    rw [← h]

/-- Inverting a successful `get_page_by_title`: the result is a child of the
located parent. -/
theorem get_page_by_title_some {f : List PTree} {title : String} {parentId : Nat}
    {pg : Page} (h : get_page_by_title f title parentId = .ok (some pg)) :
    ∃ t anc c, Forest.locate [] parentId f = some (t, anc) ∧ c ∈ t.children ∧
      c.page = pg ∧ pg.title = title := by
  unfold get_page_by_title at h
  cases hc : Remote.children f parentId with
  | none => rw [hc] at h; cases h
  | some kids =>
    rw [hc] at h
    have hfind : kids.find? (fun p => p.title == title) = some pg := by
      injection h
    rcases children_inv hc with ⟨t, anc, hl, hk⟩
    have hmem := List.mem_of_find?_eq_some hfind
    have hpred := List.find?_some hfind
    rw [hk] at hmem
    rcases List.mem_map.mp hmem with ⟨c, hcm, hcp⟩
    exact ⟨t, anc, c, hl, hcm, hcp, by simpa using hpred⟩

/-- The root-containment flag lifts from a page to any page whose chain
extends the page's chain by the page itself. -/
theorem isDesc_extend (root : Nat) (pg : Page) (anc : List Page) (tp : Page)
    (h : isDescendantOfRoot root (tp, anc) = true) :
    isDescendantOfRoot root (pg, anc ++ [tp]) = true := by
  unfold isDescendantOfRoot at h ⊢
  rcases Bool.or_eq_true_iff.mp h with hh | hh
  · refine Bool.or_eq_true_iff.mpr (Or.inr ?_)
    exact List.any_eq_true.mpr ⟨tp, List.mem_append_right _ (List.mem_singleton.mpr rfl), hh⟩
  · rcases List.any_eq_true.mp hh with ⟨a, ha, hpa⟩
    refine Bool.or_eq_true_iff.mpr (Or.inr ?_)
    exact List.any_eq_true.mpr ⟨a, List.mem_append_left _ ha, hpa⟩

/-- The root-containment flag holds for chains extending further. -/
theorem isDesc_extend_many (root : Nat) (pg pg2 : Page) (anc : List Page)
    (ext : List Page)
    (h : isDescendantOfRoot root (pg, anc) = true) (hpg : pg ∈ ext ∨ pg2 = pg) :
    isDescendantOfRoot root (pg2, anc ++ ext) = true := by
  unfold isDescendantOfRoot at h ⊢
  rcases Bool.or_eq_true_iff.mp h with hh | hh
  · rcases hpg with hm | he
    · refine Bool.or_eq_true_iff.mpr (Or.inr ?_)
      exact List.any_eq_true.mpr ⟨pg, List.mem_append_right _ hm, hh⟩
    · exact Bool.or_eq_true_iff.mpr (Or.inl (he ▸ hh))
  · rcases List.any_eq_true.mp hh with ⟨a, ha, hpa⟩
    refine Bool.or_eq_true_iff.mpr (Or.inr ?_)
    exact List.any_eq_true.mpr ⟨a, List.mem_append_left _ ha, hpa⟩

/-- The walk of `get_page_by_path` only produces in-scope pages: starting from
the configured root (or any in-scope id), every page it can return is located
in the space with the root in scope. -/
theorem walk_scope (root : Nat) (f : List PTree) (hN : NodupIds f) :
    ∀ (parts : List String) (cur : Nat) (acc : Option Page) (p : Page),
      (cur = root ∨ ∃ t anc, Forest.locate [] cur f = some (t, anc) ∧
        isDescendantOfRoot root (t.page, anc) = true) →
      (∀ pp, acc = some pp → ∃ t anc, Forest.locate [] pp.id f = some (t, anc) ∧
        t.page = pp ∧ isDescendantOfRoot root (pp, anc) = true) →
      (walkParts f parts cur acc).1 = .ok (some p) →
      ∃ t anc, Forest.locate [] p.id f = some (t, anc) ∧ t.page = p ∧
        isDescendantOfRoot root (p, anc) = true := by
  intro parts
  induction parts with
  | nil =>
    intro cur acc p hcur hacc hw
    exact hacc p (by cases hw; rfl)
  | cons part rest ih =>
    intro cur acc p hcur hacc hw
    simp only [walkParts] at hw
    cases hg : get_page_by_title f part cur with
    | error e => rw [hg] at hw; simp at hw
    | ok og =>
      cases og with
      | none => rw [hg] at hw; simp at hw
      | some pg =>
        rw [hg] at hw
        dsimp only at hw
        rcases get_page_by_title_some hg with ⟨t, anc, c, hl, hcm, hcp, hti⟩
        have hlc := Forest.locate_child f hN hl hcm
        have hdc : isDescendantOfRoot root (c.page, anc ++ [t.page]) = true := by
          rcases hcur with hr | ⟨t', anc', hl', hd'⟩
          · have hid : t.page.id = cur := (Forest.locate_mem hl).2
            unfold isDescendantOfRoot
            refine Bool.or_eq_true_iff.mpr (Or.inr ?_)
            refine List.any_eq_true.mpr ⟨t.page,
              List.mem_append_right _ (List.mem_singleton.mpr rfl), ?_⟩
            rw [hid, hr]
            simp
          · rw [hl'] at hl
            have hin := Option.some.inj hl
            have ht : t' = t := congrArg Prod.fst hin
            have ha : anc' = anc := congrArg Prod.snd hin
            rw [ht, ha] at hd'
            exact isDesc_extend root c.page anc t.page hd'
        refine ih pg.id (some pg) p ?_ ?_ hw
        · refine Or.inr ⟨c, anc ++ [t.page], ?_, hdc⟩
          rw [← hcp]
          exact hlc
        · intro pp hpp
          have hpg : pg = pp := by cases hpp; rfl
          subst hpg
          refine ⟨c, anc ++ [t.page], ?_, hcp, ?_⟩
          · rw [← hcp]
            exact hlc
          · rw [← hcp]
            exact hdc

/-- Unpacking a successful tree-start resolution: the start page is located
with its true chain and passes the root-containment check. -/
theorem treeStart_facts (root : Nat) (f : List PTree) (st : Option String)
    (p : Page) (anc : List Page) (hN : NodupIds f)
    (h : treeStart root f st = .ok (p, anc)) :
    ∃ t, Forest.locate [] p.id f = some (t, anc) ∧ t.page = p ∧
      isDescendantOfRoot root (p, anc) = true := by
  unfold treeStart at h
  by_cases hc : ((st.getD "") != "") = true
  · rw [if_pos hc] at h
    rcases ensure_ok_facts root f _ p anc h with ⟨t, hmem, hpage, _, hdesc⟩
    exact ⟨t, by rw [← hpage]; exact Forest.locate_of_mem f hN t anc hmem, hpage, hdesc⟩
  · rw [if_neg hc] at h
    cases hg : Remote.getPage f root with
    | none => rw [hg] at h; cases h
    | some pr =>
      rw [hg] at h
      have hpr : pr = (p, anc) := by cases h; rfl
      subst hpr
      unfold Remote.getPage at hg
      cases hl : Forest.locate [] root f with
      | none => rw [hl] at hg; cases hg
      | some r =>
        rw [hl] at hg
        simp only [Option.map_some', Option.some.injEq] at hg
        have hp : r.1.page = p := congrArg Prod.fst hg
        have ha : r.2 = anc := congrArg Prod.snd hg
        have hid : r.1.page.id = root := (Forest.locate_mem hl).2
        have hpid : p.id = root := by rw [← hp]; exact hid
        refine ⟨r.1, ?_, hp, ?_⟩
        · rw [hpid, hl, ← ha]
        · unfold isDescendantOfRoot
          refine Bool.or_eq_true_iff.mpr (Or.inl ?_)
          simp [hpid]

/-! ### C1 — root-containment invariant -/

/-- C1 counterexample: with the configured root (id 1) nested under the
space-level page "Space", `parent` on the root's own title returns the page
titled "Space", whose every bearer in the space fails the root-containment
check — an out-of-scope page returned to the caller. -/
theorem scope_invariant_counterexample :
    get_page_parent 1 nestedForest "Root" = .ok (some ("Space", ["Space", "Root"])) ∧
    (Remote.search nestedForest "Space").all
      (fun pr => !(isDescendantOfRoot 1 pr)) = true := by
  constructor <;> rfl

/-- C1 (amended): every page returned by resolve (`get_page_by_path`),
children (`get_page_children`) or tree (`get_page_tree`) is in scope: its id
equals the configured root id or the root id occurs in its ancestor chain; in
particular a single-segment title all of whose search matches are out of
scope resolves to NotFound.  For parent (`get_page_parent`) the returned
ancestor is in scope provided the resolved page is not the configured root
itself; the parent of a nested configured root escapes the subtree (see the
counterexample). -/
theorem scope_invariant (root : Nat) (f : List PTree) (hN : NodupIds f) :
    (∀ (path : String) (p : Page),
      (get_page_by_path root f path).1 = .ok (some p) →
      ∃ t anc, Forest.locate [] p.id f = some (t, anc) ∧ t.page = p ∧
        isDescendantOfRoot root (p, anc) = true) ∧
    (∀ (path single : String),
      splitPath (stripSlashes path) = [single] →
      (∀ pr ∈ Remote.search f single, isDescendantOfRoot root pr = false) →
      (get_page_by_path root f path).1 = .ok none) ∧
    (∀ (title : String) (lst : List (String × List String)),
      get_page_children root f title = .ok lst →
      ∃ p anc t, ensurePageByTitle root f title = .ok (p, anc) ∧
        Forest.locate [] p.id f = some (t, anc) ∧ t.page = p ∧
        isDescendantOfRoot root (p, anc) = true ∧
        ∀ c ∈ t.children,
          Forest.locate [] c.page.id f = some (c, anc ++ [t.page]) ∧
          isDescendantOfRoot root (c.page, anc ++ [t.page]) = true) ∧
    (∀ (title : String) (r : String × List String) (p : Page) (anc : List Page),
      ensurePageByTitle root f title = .ok (p, anc) →
      get_page_parent root f title = .ok (some r) →
      p.id ≠ root →
      ∃ pp ancp tp, Forest.locate [] pp.id f = some (tp, ancp) ∧ tp.page = pp ∧
        pp.title = r.1 ∧ isDescendantOfRoot root (pp, ancp) = true) ∧
    (∀ (st : Option String) (d : Nat) (node : TreeNode),
      get_page_tree root f st d = .ok node →
      ∃ p anc t, treeStart root f st = .ok (p, anc) ∧
        Forest.locate [] p.id f = some (t, anc) ∧ t.page = p ∧
        isDescendantOfRoot root (p, anc) = true ∧
        ∀ e ∈ PTree.withAnc anc t, e ∈ Forest.withAnc [] f ∧
          isDescendantOfRoot root (e.1.page, e.2) = true) := by
  refine ⟨?_, ?_, ?_, ?_, ?_⟩
  · -- resolve
    intro path p h
    unfold get_page_by_path at h
    by_cases hs : (stripSlashes path == "") = true
    · rw [if_pos hs] at h
      cases h
    · rw [if_neg hs] at h
      cases hsp : splitPath (stripSlashes path) with
      | nil =>
        rw [hsp] at h
        dsimp only at h
        cases h
      | cons s1 srest =>
        cases srest with
        | nil =>
          rw [hsp] at h
          dsimp only at h
          cases hf : (Remote.search f s1).find? (fun pr => isDescendantOfRoot root pr) with
          | none => rw [hf] at h; cases h
          | some pr =>
            rw [hf] at h
            have hpr : pr.1 = p := by cases h; rfl
            have hmem := List.mem_of_find?_eq_some hf
            have hpred := List.find?_some hf
            unfold Remote.search at hmem
            rcases List.mem_map.mp hmem with ⟨e, he, hproj⟩
            have hfil := List.mem_filter.mp he
            have hp1 : e.1.page = p := by
              rw [← hpr]
              exact congrArg Prod.fst hproj
            have hp2 : e.2 = pr.2 := congrArg Prod.snd hproj
            refine ⟨e.1, pr.2, ?_, hp1, ?_⟩
            · rw [← hp1, ← hp2]
              exact Forest.locate_of_mem f hN e.1 e.2 hfil.1
            · rw [← hpr]
              exact hpred
        | cons s2 srest2 =>
          rw [hsp] at h
          exact walk_scope root f hN (s1 :: s2 :: srest2) root none p (Or.inl rfl)
            (fun pp hpp => by cases hpp) h
  · -- single-segment search with only out-of-scope matches
    intro path single hsp hout
    unfold get_page_by_path
    by_cases hs : (stripSlashes path == "") = true
    · rw [if_pos hs]
    · rw [if_neg hs, hsp]
      dsimp only
      rw [List.find?_eq_none.mpr (fun pr hpr => by rw [hout pr hpr]; simp)]
      rfl
  · -- children
    intro title lst h
    unfold get_page_children at h
    cases he : ensurePageByTitle root f title with
    | error e => rw [he] at h; cases h
    | ok pr =>
      obtain ⟨p, anc⟩ := pr
      rw [he] at h
      rcases ensure_ok_facts root f title p anc he with ⟨t, hmem, hpage, _, hdesc⟩
      have hl : Forest.locate [] p.id f = some (t, anc) := by
        rw [← hpage]
        exact Forest.locate_of_mem f hN t anc hmem
      refine ⟨p, anc, t, rfl, hl, hpage, hdesc, ?_⟩
      intro c hc
      refine ⟨Forest.locate_child f hN hl hc, ?_⟩
      exact isDesc_extend root c.page anc t.page (by rw [hpage]; exact hdesc)
  · -- parent of a non-root page
    intro title r p anc he hr hproot
    rcases ensure_ok_facts root f title p anc he with ⟨t, hmem, hpage, _, hdesc⟩
    have hrootanc : root ∈ anc.map Page.id := by
      unfold isDescendantOfRoot at hdesc
      rcases Bool.or_eq_true_iff.mp hdesc with hh | hh
      · exact absurd (by simpa using hh) hproot
      · rcases List.any_eq_true.mp hh with ⟨a, ha, hpa⟩
        exact List.mem_map.mpr ⟨a, ha, by simpa using hpa⟩
    have hud : get_page_parent root f title =
        match anc.getLast? with
        | none => .ok none
        | some par => .ok (some (par.title, anc.map Page.title ++ [p.title])) := by
      unfold get_page_parent
      rw [he]
    rw [hud] at hr
    cases hgl : anc.getLast? with
    | none => rw [hgl] at hr; cases hr
    | some par =>
      rw [hgl] at hr
      have hrr : r = (par.title, anc.map Page.title ++ [p.title]) := by
        cases hr
        rfl
      rcases List.getLast?_eq_some_iff.mp hgl with ⟨as_, has⟩
      rcases withAnc_parent_all.2 f [] t anc hmem with ⟨hanc0, _⟩ |
        ⟨tp, as2, hmemp, hanc2, _⟩
      · rw [hanc0] at has
        cases as_ <;> cases has
      · have hsame : as2 ++ [tp.page] = as_ ++ [par] := by rw [← hanc2, ← has]
        have hlen : ([tp.page] : List Page).length = ([par] : List Page).length := rfl
        obtain ⟨h1, h2⟩ := List.append_inj' hsame hlen
        have hpar : tp.page = par := by simpa using h2
        refine ⟨par, as2, tp, ?_, hpar, ?_, ?_⟩
        · rw [← hpar]
          exact Forest.locate_of_mem f hN tp as2 hmemp
        · rw [hrr]
        · have hin : root ∈ (as2 ++ [tp.page]).map Page.id := by
            rw [← hanc2]
            exact hrootanc
          rw [List.map_append] at hin
          rcases List.mem_append.mp hin with hh | hh
          · unfold isDescendantOfRoot
            refine Bool.or_eq_true_iff.mpr (Or.inr ?_)
            rcases List.mem_map.mp hh with ⟨a, ha, haid⟩
            exact List.any_eq_true.mpr ⟨a, ha, by simp [haid]⟩
          · have hpid : par.id = root := by
              rw [← hpar]
              have : root = tp.page.id := by simpa using hh
              exact this.symm
            unfold isDescendantOfRoot
            refine Bool.or_eq_true_iff.mpr (Or.inl ?_)
            simp [hpid]
  · -- tree
    intro st d node h
    unfold get_page_tree at h
    cases hts : treeStart root f st with
    | error e => rw [hts] at h; cases h
    | ok pr =>
      obtain ⟨p, anc⟩ := pr
      rw [hts] at h
      rcases treeStart_facts root f st p anc hN hts with ⟨t, hl, hpage, hdesc⟩
      refine ⟨p, anc, t, rfl, hl, hpage, hdesc, ?_⟩
      intro e he
      have hmemf : e ∈ Forest.withAnc [] f :=
        withAnc_sub_all.2 f [] t anc (Forest.locate_mem hl).1 e he
      refine ⟨hmemf, ?_⟩
      cases t with
      | node p' cs =>
        rw [show PTree.withAnc anc (.node p' cs) =
            (.node p' cs, anc) :: Forest.withAnc (anc ++ [p']) cs from rfl] at he
        have hp' : p' = p := by simpa using hpage
        rcases List.mem_cons.mp he with h1 | h1
        · rw [h1]
          show isDescendantOfRoot root (p', anc) = true
          rw [hp']
          exact hdesc
        · rcases withAnc_extends_all.2 cs (anc ++ [p']) e.1 e.2 h1 with ⟨ext, hext⟩
          rw [hext, List.append_assoc]
          refine isDesc_extend_many root p' e.1.page anc ([p'] ++ ext) ?_ ?_
          · rw [hp']
            exact hdesc
          · exact Or.inl (List.mem_append_left _ (List.mem_singleton.mpr rfl))

/-- Witness for C1's amended theorem: resolving "Guide" on the scenario space
returns the Guide page, located under the root with the root id in its
chain. -/
theorem scope_invariant_witness :
    ∃ t anc, Forest.locate [] (exPage 4 "Guide").id exForest = some (t, anc) ∧
      t.page = exPage 4 "Guide" ∧
      isDescendantOfRoot 1 (exPage 4 "Guide", anc) = true :=
  (scope_invariant 1 exForest (by decide)).1 "Guide" (exPage 4 "Guide") (by rfl)

/-! ### Machinery for path creation (C5, C6) -/

/-- Python's split never returns an empty list of segments. -/
theorem splitSlashChars_ne_nil (l : List Char) : splitSlashChars l ≠ [] := by
  cases l with
  | nil => simp [splitSlashChars]
  | cons c rest =>
    by_cases hc : (c == '/') = true
    · simp [splitSlashChars, hc]
    · simp only [splitSlashChars, hc, Bool.false_eq_true, if_false]
      cases splitSlashChars rest with
      | nil => simp
      | cons h t => simp

/-- `splitPath` never returns an empty list of segments. -/
theorem splitPath_ne_nil (s : String) : splitPath s ≠ [] := by
  unfold splitPath
  intro h
  exact splitSlashChars_ne_nil s.toList (List.map_eq_nil_iff.mp h)

/-- The child listing after an insertion: unchanged everywhere except at the
targeted parent, which gains the new page at the end of its listing. -/
theorem Remote.children_insert (f : List PTree) (pid : Nat) (q : Page) (x : Nat)
    (hx : x ≠ q.id) :
    Remote.children (Forest.insertChild pid q f) x =
      (Remote.children f x).map (fun kids => kids ++ if x = pid then [q] else []) := by
  unfold Remote.children
  rw [locate_insert_all.2 f [] pid q x hx]
  cases hl : Forest.locate [] x f with
  | none => simp
  | some r =>
    simp only [Option.map_some', Option.some.injEq]
    rw [insertChild_children_pages]
    have hid : r.1.page.id = x := (Forest.locate_mem hl).2
    by_cases hxe : x = pid
    · rw [if_pos hxe, hid, hxe]
      simp
    · rw [if_neg hxe, hid]
      have : (x == pid) = false := beq_eq_false_iff_ne.mpr hxe
      rw [this]
      simp

/-- A readable child listing implies the id is present in the space. -/
theorem children_some_mem_ids {f : List PTree} {x : Nat} {kids : List Page}
    (h : Remote.children f x = some kids) : x ∈ Forest.ids f := by
  rcases children_inv h with ⟨t, anc, hl, _⟩
  by_contra hc
  rw [(Forest.locate_eq_none_iff [] x f).mpr hc] at hl
  cases hl

/-- Every call issued by the creation walk is a child listing or an
empty-body page creation. -/
theorem rc_calls_shape : ∀ (parts : List String) (s : SpaceState) (cur : Nat),
    ∀ c ∈ (resolveOrCreateParts parts s cur).2.2,
      (∃ x, c = .childList x) ∨ (∃ x ti, c = .createContent x ti "") := by
  intro parts
  induction parts with
  | nil =>
    intro s cur c hc
    cases hc
  | cons part rest ih =>
    intro s cur c hc
    simp only [resolveOrCreateParts] at hc
    cases hg : get_page_by_title s.forest part cur with
    | error e =>
      rw [hg] at hc
      rcases List.mem_singleton.mp hc with h
      exact Or.inl ⟨cur, h⟩
    | ok og =>
      cases og with
      | some ex =>
        rw [hg] at hc
        dsimp only at hc
        rcases List.mem_cons.mp hc with h | h
        · exact Or.inl ⟨cur, h⟩
        · exact ih s ex.id c h
      | none =>
        rw [hg] at hc
        dsimp only at hc
        cases hcr : Remote.create s cur part "" with
        | none =>
          rw [hcr] at hc
          rcases List.mem_cons.mp hc with h | h
          · exact Or.inl ⟨cur, h⟩
          · exact Or.inr ⟨cur, part, List.mem_singleton.mp h⟩
        | some pr =>
          rw [hcr] at hc
          dsimp only at hc
          rcases List.mem_cons.mp hc with h | h
          · exact Or.inl ⟨cur, h⟩
          rcases List.mem_cons.mp h with h2 | h2
          · exact Or.inr ⟨cur, part, h2⟩
          · exact ih pr.1 pr.2.id c h2

/-- Frame lemma for the creation walk: space invariants are preserved, the
allocator is monotone, and child listings only grow at the end. -/
theorem rc_frame : ∀ (parts : List String) (s : SpaceState) (cur : Nat),
    NodupIds s.forest → Fresh s →
    NodupIds (resolveOrCreateParts parts s cur).2.1.forest ∧
    Fresh (resolveOrCreateParts parts s cur).2.1 ∧
    s.nextId ≤ (resolveOrCreateParts parts s cur).2.1.nextId ∧
    ChildExt s (resolveOrCreateParts parts s cur).2.1 := by
  intro parts
  induction parts with
  | nil =>
    intro s cur hN hF
    exact ⟨hN, hF, le_refl _, fun x kids h => ⟨[], by simpa using h⟩⟩
  | cons part rest ih =>
    intro s cur hN hF
    simp only [resolveOrCreateParts]
    cases hg : get_page_by_title s.forest part cur with
    | error e =>
      exact ⟨hN, hF, le_refl _, fun x kids h => ⟨[], by simpa using h⟩⟩
    | ok og =>
      cases og with
      | some ex =>
        dsimp only
        exact ih s ex.id hN hF
      | none =>
        dsimp only
        cases hcr : Remote.create s cur part "" with
        | none =>
          exact ⟨hN, hF, le_refl _, fun x kids h => ⟨[], by simpa using h⟩⟩
        | some pr =>
          obtain ⟨s1, q⟩ := pr
          dsimp only
          rcases create_spec s cur part "" s1 q hcr hN hF with
            ⟨hq, hforest, hnext, hN1, hF1, hqfresh⟩
          rcases ih s1 q.id hN1 hF1 with ⟨hN', hF', hle', hext'⟩
          refine ⟨hN', hF', ?_, ?_⟩
          · rw [hnext] at hle'
            exact le_trans (Nat.le_succ _) hle'
          · intro x kids h
            have hxid : x ∈ Forest.ids s.forest := children_some_mem_ids h
            have hxne : x ≠ q.id := by
              intro hc
              rw [hq] at hc
              exact absurd (hF x hxid) (by rw [hc]; exact lt_irrefl _)
            have h1 : Remote.children s1.forest x =
                some (kids ++ if x = cur then [q] else []) := by
              rw [hforest, Remote.children_insert s.forest cur q x hxne, h]
              rfl
            rcases hext' x _ h1 with ⟨ext2, h2⟩
            exact ⟨(if x = cur then [q] else []) ++ ext2, by
              rw [← List.append_assoc]; exact h2⟩

/-- One-step unfolding of the creation walk on a non-empty segment list. -/
theorem rc_cons_eq (part : String) (rest : List String) (s : SpaceState) (cur : Nat) :
    resolveOrCreateParts (part :: rest) s cur =
      match get_page_by_title s.forest part cur with
      | .error e => (.error e, s, [.childList cur])
      | .ok (some existing) =>
        ((resolveOrCreateParts rest s existing.id).1,
         (resolveOrCreateParts rest s existing.id).2.1,
         .childList cur :: (resolveOrCreateParts rest s existing.id).2.2)
      | .ok none =>
        match Remote.create s cur part "" with
        | none => (.error remote404, s, [.childList cur, .createContent cur part ""])
        | some (s1, q) =>
          ((resolveOrCreateParts rest s1 q.id).1,
           (resolveOrCreateParts rest s1 q.id).2.1,
           .childList cur :: .createContent cur part "" ::
             (resolveOrCreateParts rest s1 q.id).2.2) := rfl

/-- One-step unfolding of the resolution walk on a non-empty segment list. -/
theorem walk_cons_eq (f : List PTree) (part : String) (rest : List String) (cur : Nat)
    (acc : Option Page) :
    walkParts f (part :: rest) cur acc =
      match get_page_by_title f part cur with
      | .error e => (.error e, [.childList cur])
      | .ok none => (.ok none, [.childList cur])
      | .ok (some pg) =>
        ((walkParts f rest pg.id (some pg)).1,
          .childList cur :: (walkParts f rest pg.id (some pg)).2) := rfl

/-- Main lemma of the creation walk: starting from a located page, the walk
succeeds, preserves the space invariants, creates each missing segment (the
new leaf carries the last segment's title), the leaf's chain contains the
start id and chain, and afterwards the resolution walk over the same segments
from the same start reaches the leaf. -/
theorem rc_main : ∀ (parts : List String) (s : SpaceState) (cur : Nat) (t : PTree)
    (anc : List Page),
    NodupIds s.forest → Fresh s → Forest.locate [] cur s.forest = some (t, anc) →
    ∃ (s' : SpaceState) (t' : PTree) (anc' : List Page) (calls : List RemoteCall),
      resolveOrCreateParts parts s cur = (.ok t'.page.id, s', calls) ∧
      NodupIds s'.forest ∧ Fresh s' ∧ s.nextId ≤ s'.nextId ∧
      Forest.locate [] t'.page.id s'.forest = some (t', anc') ∧
      (parts = [] → t' = t ∧ anc' = anc) ∧
      (parts ≠ [] → parts.getLast? = some t'.page.title) ∧
      (parts ≠ [] → ∀ a, (a ∈ anc.map Page.id ∨ a = cur) → a ∈ anc'.map Page.id) ∧
      (∀ acc, (walkParts s'.forest parts cur acc).1 =
        .ok (match parts with | [] => acc | _ :: _ => some t'.page)) := by
  intro parts
  induction parts with
  | nil =>
    intro s cur t anc hN hF hloc
    have hid : t.page.id = cur := (Forest.locate_mem hloc).2
    refine ⟨s, t, anc, [], ?_, hN, hF, le_refl _, ?_, fun _ => ⟨rfl, rfl⟩,
      ?_, ?_, fun acc => rfl⟩
    · rw [hid]
      rfl
    · rw [hid]
      exact hloc
    · intro h
      cases h rfl
    · intro h
      cases h rfl
  | cons part rest ih =>
    intro s cur t anc hN hF hloc
    have hidcur : t.page.id = cur := (Forest.locate_mem hloc).2
    have hch : Remote.children s.forest cur = some (t.children.map PTree.page) := by
      unfold Remote.children
      rw [hloc]
      rfl
    have hgbt : get_page_by_title s.forest part cur =
        .ok ((t.children.map PTree.page).find? (fun p => p.title == part)) := by
      unfold get_page_by_title
      rw [hch]
    have hsupbase : ∀ a, (a ∈ anc.map Page.id ∨ a = cur) →
        a ∈ (anc ++ [t.page]).map Page.id := by
      intro a ha
      rw [List.map_append]
      rcases ha with h1 | h1
      · exact List.mem_append_left _ h1
      · refine List.mem_append_right _ ?_
        simp [h1, ← hidcur]
    cases hf : (t.children.map PTree.page).find? (fun p => p.title == part) with
    | some pg =>
      rw [hf] at hgbt
      have hmem := List.mem_of_find?_eq_some hf
      have hpred := List.find?_some hf
      rcases List.mem_map.mp hmem with ⟨c, hcm, hcp⟩
      have htitle : pg.title = part := by simpa using hpred
      have hlc : Forest.locate [] pg.id s.forest = some (c, anc ++ [t.page]) := by
        rw [← hcp]
        exact Forest.locate_child s.forest hN hloc hcm
      cases rest with
      | nil =>
        refine ⟨s, c, anc ++ [t.page], [.childList cur], ?_, hN, hF, le_refl _, ?_,
          ?_, ?_, ?_, ?_⟩
        · rw [rc_cons_eq, hgbt]
          dsimp only
          rw [hcp]
          rfl
        · rw [hcp]
          exact hlc
        · intro h
          cases h
        · intro _
          simp [hcp, htitle]
        · intro _
          exact hsupbase
        · intro acc
          rw [walk_cons_eq, hgbt]
          dsimp only
          rw [hcp]
          rfl
      | cons r1 rest2 =>
        rcases ih s pg.id c (anc ++ [t.page]) hN hF hlc with
          ⟨s', t', anc', calls, heq, hN', hF', hle, hloc', _, hlast, hsup, hwalk⟩
        have hextS : ChildExt s s' := by
          have hfr := (rc_frame (r1 :: rest2) s pg.id hN hF).2.2.2
          rw [heq] at hfr
          exact hfr
        refine ⟨s', t', anc', .childList cur :: calls, ?_, hN', hF', hle, hloc',
          ?_, ?_, ?_, ?_⟩
        · rw [rc_cons_eq, hgbt]
          dsimp only
          rw [heq]
        · intro h
          cases h
        · intro _
          rw [List.getLast?_cons_cons]
          exact hlast (by simp)
        · intro _ a ha
          exact hsup (by simp) a (Or.inl (hsupbase a ha))
        · intro acc
          rcases hextS cur _ hch with ⟨ext, hch'⟩
          have hgbt' : get_page_by_title s'.forest part cur = .ok (some pg) := by
            unfold get_page_by_title
            rw [hch']
            dsimp only
            rw [List.find?_append, hf]
            rfl
          rw [walk_cons_eq, hgbt']
          dsimp only
          exact hwalk (some pg)
    | none =>
      rw [hf] at hgbt
      have hcr : Remote.create s cur part "" =
          some (⟨Forest.insertChild cur ⟨s.nextId, part, 1, ""⟩ s.forest, s.nextId + 1⟩,
            ⟨s.nextId, part, 1, ""⟩) := by
        unfold Remote.create
        rw [hloc]
      rcases create_spec s cur part "" _ _ hcr hN hF with
        ⟨_, hforest, hnext, hN1, hF1, hqfresh⟩
      have hlocq : Forest.locate []
          (⟨s.nextId, part, 1, ""⟩ : Page).id
          (Forest.insertChild cur ⟨s.nextId, part, 1, ""⟩ s.forest) =
          some (.node ⟨s.nextId, part, 1, ""⟩ [], anc ++ [t.page]) := by
        rw [locate_insert_new_all.2 s.forest [] cur ⟨s.nextId, part, 1, ""⟩ hN hqfresh,
          hloc]
        rfl
      have hcurne : cur ≠ (⟨s.nextId, part, 1, ""⟩ : Page).id := by
        intro hc
        apply hqfresh
        rw [← hc, ← hidcur]
        rcases Forest.locate_mem hloc with ⟨hm, _⟩
        rw [← withAnc_map_id_all.2 s.forest []]
        exact List.mem_map.mpr ⟨(t, anc), hm, rfl⟩
      have hch1 : Remote.children
          (Forest.insertChild cur ⟨s.nextId, part, 1, ""⟩ s.forest) cur =
          some (t.children.map PTree.page ++ [⟨s.nextId, part, 1, ""⟩]) := by
        rw [Remote.children_insert s.forest cur ⟨s.nextId, part, 1, ""⟩ cur hcurne, hch]
        simp
      cases rest with
      | nil =>
        refine ⟨⟨Forest.insertChild cur ⟨s.nextId, part, 1, ""⟩ s.forest, s.nextId + 1⟩,
          .node ⟨s.nextId, part, 1, ""⟩ [], anc ++ [t.page],
          [.childList cur, .createContent cur part ""], ?_, hN1, hF1,
          Nat.le_succ _, hlocq, ?_, ?_, ?_, ?_⟩
        · rw [rc_cons_eq, hgbt]
          dsimp only
          rw [hcr]
          rfl
        · intro h
          cases h
        · intro _
          rfl
        · intro _
          exact hsupbase
        · intro acc
          have hgbt1 : get_page_by_title
              (Forest.insertChild cur ⟨s.nextId, part, 1, ""⟩ s.forest) part cur =
              .ok (some ⟨s.nextId, part, 1, ""⟩) := by
            unfold get_page_by_title
            rw [hch1]
            dsimp only
            rw [List.find?_append, hf]
            simp
          rw [walk_cons_eq, hgbt1]
          rfl
      | cons r1 rest2 =>
        rcases ih ⟨Forest.insertChild cur ⟨s.nextId, part, 1, ""⟩ s.forest, s.nextId + 1⟩
            (⟨s.nextId, part, 1, ""⟩ : Page).id (.node ⟨s.nextId, part, 1, ""⟩ [])
            (anc ++ [t.page]) hN1 hF1 hlocq with
          ⟨s', t', anc', calls, heq, hN', hF', hle, hloc', _, hlast, hsup, hwalk⟩
        have hextS : ChildExt
            ⟨Forest.insertChild cur ⟨s.nextId, part, 1, ""⟩ s.forest, s.nextId + 1⟩ s' := by
          have hfr := (rc_frame (r1 :: rest2)
            ⟨Forest.insertChild cur ⟨s.nextId, part, 1, ""⟩ s.forest, s.nextId + 1⟩
            (⟨s.nextId, part, 1, ""⟩ : Page).id hN1 hF1).2.2.2
          rw [heq] at hfr
          exact hfr
        refine ⟨s', t', anc',
          .childList cur :: .createContent cur part "" :: calls, ?_, hN', hF',
          le_trans (Nat.le_succ _) hle, hloc', ?_, ?_, ?_, ?_⟩
        · rw [rc_cons_eq, hgbt]
          dsimp only
          rw [hcr]
          dsimp only
          rw [heq]
        · intro h
          cases h
        · intro _
          rw [List.getLast?_cons_cons]
          exact hlast (by simp)
        · intro _ a ha
          refine hsup (by simp) a (Or.inl ?_)
          exact hsupbase a ha
        · intro acc
          rcases hextS cur _ hch1 with ⟨ext, hch'⟩
          have hgbt' : get_page_by_title s'.forest part cur =
              .ok (some ⟨s.nextId, part, 1, ""⟩) := by
            unfold get_page_by_title
            rw [hch']
            dsimp only
            rw [List.append_assoc, List.find?_append, hf]
            simp only [Option.none_or]
            rw [List.find?_append]
            have hone : ([(⟨s.nextId, part, 1, ""⟩ : Page)].find?
                (fun p => p.title == part)) = some ⟨s.nextId, part, 1, ""⟩ := by
              simp [List.find?]
            rw [hone]
            rfl
          rw [walk_cons_eq, hgbt']
          dsimp only
          exact hwalk (some ⟨s.nextId, part, 1, ""⟩)

/-- Idempotence of the creation walk: re-running the walk on any state whose
child listings extend those of the walk's final state resolves the same chain
to the same id without creating or writing anything, and leaves the state
untouched. -/
theorem rc_idem : ∀ (parts : List String) (s : SpaceState) (cur pid : Nat)
    (s' : SpaceState) (calls : List RemoteCall) (s2 : SpaceState),
    NodupIds s.forest → Fresh s →
    (∃ t anc, Forest.locate [] cur s.forest = some (t, anc)) →
    resolveOrCreateParts parts s cur = (.ok pid, s', calls) →
    ChildExt s' s2 →
    ∃ calls2, resolveOrCreateParts parts s2 cur = (.ok pid, s2, calls2) ∧
      ∀ c ∈ calls2, c.isCreate = false ∧ c.isPut = false := by
  intro parts
  induction parts with
  | nil =>
    intro s cur pid s' calls s2 hN hF hcur hrun hext
    have hpid : cur = pid := by
      have h1 : (Except.ok cur : Except HttpError Nat) = .ok pid :=
        congrArg (fun x => x.1) hrun
      exact Except.ok.inj h1
    refine ⟨[], ?_, ?_⟩
    · rw [← hpid]
      rfl
    · intro c hc
      cases hc
  | cons part rest ih =>
    intro s cur pid s' calls s2 hN hF hcur hrun hext
    rcases hcur with ⟨t, anc, hloc⟩
    have hch : Remote.children s.forest cur = some (t.children.map PTree.page) := by
      unfold Remote.children
      rw [hloc]
      rfl
    have hgbt : get_page_by_title s.forest part cur =
        .ok ((t.children.map PTree.page).find? (fun p => p.title == part)) := by
      unfold get_page_by_title
      rw [hch]
    rw [rc_cons_eq, hgbt] at hrun
    cases hf : (t.children.map PTree.page).find? (fun p => p.title == part) with
    | some pg =>
      rw [hf] at hrun
      dsimp only at hrun
      have hrun1 : (resolveOrCreateParts rest s pg.id).1 = .ok pid :=
        congrArg (fun x => x.1) hrun
      have hrun2 : (resolveOrCreateParts rest s pg.id).2.1 = s' :=
        congrArg (fun x => x.2.1) hrun
      have hrec : resolveOrCreateParts rest s pg.id =
          (.ok pid, s', (resolveOrCreateParts rest s pg.id).2.2) := by
        rw [show resolveOrCreateParts rest s pg.id =
          ((resolveOrCreateParts rest s pg.id).1,
           (resolveOrCreateParts rest s pg.id).2.1,
           (resolveOrCreateParts rest s pg.id).2.2) from rfl, hrun1, hrun2]
      rcases List.mem_map.mp (List.mem_of_find?_eq_some hf) with ⟨c, hcm, hcp⟩
      have hlc : Forest.locate [] pg.id s.forest = some (c, anc ++ [t.page]) := by
        rw [← hcp]
        exact Forest.locate_child s.forest hN hloc hcm
      have hextS : ChildExt s s' := by
        have hfr := (rc_frame rest s pg.id hN hF).2.2.2
        rw [hrun2] at hfr
        exact hfr
      rcases hextS cur _ hch with ⟨ext0, hch'⟩
      rcases hext cur _ hch' with ⟨ext1, hch2⟩
      have hgbt2 : get_page_by_title s2.forest part cur = .ok (some pg) := by
        unfold get_page_by_title
        rw [hch2]
        dsimp only
        rw [List.append_assoc, List.find?_append, hf]
        rfl
      rcases ih s pg.id pid s' _ s2 hN hF ⟨c, anc ++ [t.page], hlc⟩ hrec hext with
        ⟨calls2R, heq2, hnw⟩
      refine ⟨.childList cur :: calls2R, ?_, ?_⟩
      · rw [rc_cons_eq, hgbt2]
        dsimp only
        rw [heq2]
      · intro d hd
        rcases List.mem_cons.mp hd with h1 | h1
        · rw [h1]
          exact ⟨rfl, rfl⟩
        · exact hnw d h1
    | none =>
      rw [hf] at hrun
      dsimp only at hrun
      have hcr : Remote.create s cur part "" =
          some (⟨Forest.insertChild cur ⟨s.nextId, part, 1, ""⟩ s.forest, s.nextId + 1⟩,
            ⟨s.nextId, part, 1, ""⟩) := by
        unfold Remote.create
        rw [hloc]
      rw [hcr] at hrun
      dsimp only at hrun
      have hrun1 : (resolveOrCreateParts rest
          ⟨Forest.insertChild cur ⟨s.nextId, part, 1, ""⟩ s.forest, s.nextId + 1⟩
          (⟨s.nextId, part, 1, ""⟩ : Page).id).1 = .ok pid :=
        congrArg (fun x => x.1) hrun
      have hrun2 : (resolveOrCreateParts rest
          ⟨Forest.insertChild cur ⟨s.nextId, part, 1, ""⟩ s.forest, s.nextId + 1⟩
          (⟨s.nextId, part, 1, ""⟩ : Page).id).2.1 = s' :=
        congrArg (fun x => x.2.1) hrun
      have hrec : resolveOrCreateParts rest
          ⟨Forest.insertChild cur ⟨s.nextId, part, 1, ""⟩ s.forest, s.nextId + 1⟩
          (⟨s.nextId, part, 1, ""⟩ : Page).id =
          (.ok pid, s', (resolveOrCreateParts rest
            ⟨Forest.insertChild cur ⟨s.nextId, part, 1, ""⟩ s.forest, s.nextId + 1⟩
            (⟨s.nextId, part, 1, ""⟩ : Page).id).2.2) := by
        rw [show resolveOrCreateParts rest
            ⟨Forest.insertChild cur ⟨s.nextId, part, 1, ""⟩ s.forest, s.nextId + 1⟩
            (⟨s.nextId, part, 1, ""⟩ : Page).id =
          ((resolveOrCreateParts rest
            ⟨Forest.insertChild cur ⟨s.nextId, part, 1, ""⟩ s.forest, s.nextId + 1⟩
            (⟨s.nextId, part, 1, ""⟩ : Page).id).1,
           (resolveOrCreateParts rest
            ⟨Forest.insertChild cur ⟨s.nextId, part, 1, ""⟩ s.forest, s.nextId + 1⟩
            (⟨s.nextId, part, 1, ""⟩ : Page).id).2.1,
           (resolveOrCreateParts rest
            ⟨Forest.insertChild cur ⟨s.nextId, part, 1, ""⟩ s.forest, s.nextId + 1⟩
            (⟨s.nextId, part, 1, ""⟩ : Page).id).2.2) from rfl, hrun1, hrun2]
      rcases create_spec s cur part "" _ _ hcr hN hF with
        ⟨_, _, _, hN1, hF1, hqfresh⟩
      have hidcur : t.page.id = cur := (Forest.locate_mem hloc).2
      have hlocq : Forest.locate []
          (⟨s.nextId, part, 1, ""⟩ : Page).id
          (Forest.insertChild cur ⟨s.nextId, part, 1, ""⟩ s.forest) =
          some (.node ⟨s.nextId, part, 1, ""⟩ [], anc ++ [t.page]) := by
        rw [locate_insert_new_all.2 s.forest [] cur ⟨s.nextId, part, 1, ""⟩ hN hqfresh,
          hloc]
        rfl
      have hcurne : cur ≠ (⟨s.nextId, part, 1, ""⟩ : Page).id := by
        intro hc
        apply hqfresh
        rw [← hc, ← hidcur]
        rcases Forest.locate_mem hloc with ⟨hm, _⟩
        rw [← withAnc_map_id_all.2 s.forest []]
        exact List.mem_map.mpr ⟨(t, anc), hm, rfl⟩
      have hch1 : Remote.children
          (Forest.insertChild cur ⟨s.nextId, part, 1, ""⟩ s.forest) cur =
          some (t.children.map PTree.page ++ [⟨s.nextId, part, 1, ""⟩]) := by
        rw [Remote.children_insert s.forest cur ⟨s.nextId, part, 1, ""⟩ cur hcurne, hch]
        simp
      have hextS : ChildExt
          ⟨Forest.insertChild cur ⟨s.nextId, part, 1, ""⟩ s.forest, s.nextId + 1⟩ s' := by
        have hfr := (rc_frame rest
          ⟨Forest.insertChild cur ⟨s.nextId, part, 1, ""⟩ s.forest, s.nextId + 1⟩
          (⟨s.nextId, part, 1, ""⟩ : Page).id hN1 hF1).2.2.2
        rw [hrun2] at hfr
        exact hfr
      rcases hextS cur _ hch1 with ⟨ext0, hch'⟩
      rcases hext cur _ hch' with ⟨ext1, hch2⟩
      have hgbt2 : get_page_by_title s2.forest part cur =
          .ok (some ⟨s.nextId, part, 1, ""⟩) := by
        unfold get_page_by_title
        rw [hch2]
        dsimp only
        rw [List.append_assoc, List.append_assoc, List.find?_append, hf]
        simp only [Option.none_or]
        rw [List.find?_append]
        have hone : ([(⟨s.nextId, part, 1, ""⟩ : Page)].find?
            (fun p => p.title == part)) = some ⟨s.nextId, part, 1, ""⟩ := by
          simp [List.find?]
        rw [hone]
        rfl
      rcases ih ⟨Forest.insertChild cur ⟨s.nextId, part, 1, ""⟩ s.forest, s.nextId + 1⟩
          (⟨s.nextId, part, 1, ""⟩ : Page).id pid s' _ s2 hN1 hF1
          ⟨.node ⟨s.nextId, part, 1, ""⟩ [], anc ++ [t.page], hlocq⟩ hrec hext with
        ⟨calls2R, heq2, hnw⟩
      refine ⟨.childList cur :: calls2R, ?_, ?_⟩
      · rw [rc_cons_eq, hgbt2]
        dsimp only
        rw [heq2]
      · intro d hd
        rcases List.mem_cons.mp hd with h1 | h1
        · rw [h1]
          exact ⟨rfl, rfl⟩
        · exact hnw d h1

/-- A title search finds an in-scope match whenever one exists, and any match
it returns carries the searched title. -/
theorem search_find_desc (root : Nat) (f : List PTree) (ti : String)
    (t : PTree) (anc : List Page)
    (hm : (t, anc) ∈ Forest.withAnc [] f) (hti : t.page.title = ti)
    (hdesc : isDescendantOfRoot root (t.page, anc) = true) :
    ∃ pr, (Remote.search f ti).find? (fun pr => isDescendantOfRoot root pr) = some pr ∧
      pr.1.title = ti := by
  have hmem : (t.page, anc) ∈ Remote.search f ti := by
    unfold Remote.search
    exact List.mem_map.mpr ⟨(t, anc), List.mem_filter.mpr ⟨hm, by simp [hti]⟩, rfl⟩
  have hsome : ((Remote.search f ti).find?
      (fun pr => isDescendantOfRoot root pr)).isSome = true :=
    List.find?_isSome.mpr ⟨(t.page, anc), hmem, hdesc⟩
  cases hfind : (Remote.search f ti).find? (fun pr => isDescendantOfRoot root pr) with
  | none => rw [hfind] at hsome; cases hsome
  | some pr =>
    refine ⟨pr, rfl, ?_⟩
    have hpm := List.mem_of_find?_eq_some hfind
    unfold Remote.search at hpm
    rcases List.mem_map.mp hpm with ⟨e, he, hproj⟩
    have ht : e.1.page.title = ti := by simpa using (List.mem_filter.mp he).2
    rw [← congrArg Prod.fst hproj]
    exact ht

/-! ### C5 — path creation round-trip -/

/-- C5: on a path with a non-empty normalized form, `resolve_or_create_path`
succeeds, every page it creates is created as an empty page (in path order,
under the last resolved ancestor, by construction of the walk), and resolving
the same path afterwards returns a page whose title is the leaf segment. -/
theorem path_roundtrip (root : Nat) (path : String) (s : SpaceState)
    (hN : NodupIds s.forest) (hF : Fresh s)
    (hroot : (Forest.locate [] root s.forest).isSome = true)
    (hne : stripSlashes path ≠ "") :
    ∃ (leafId : Nat) (s' : SpaceState) (calls : List RemoteCall),
      resolve_or_create_path root path s = (.ok leafId, s', calls) ∧
      (∀ c ∈ calls, c.isCreate = true → ∃ x ti, c = .createContent x ti "") ∧
      ∃ pg, (get_page_by_path root s'.forest path).1 = .ok (some pg) ∧
        (splitPath (stripSlashes path)).getLast? = some pg.title := by
  have hpath0 : path ≠ "" := by
    intro h
    apply hne
    rw [h]
    rfl
  have hpathne : (path == "") = false := beq_eq_false_iff_ne.mpr hpath0
  obtain ⟨⟨t, anc⟩, hloc⟩ : ∃ r, Forest.locate [] root s.forest = some r := by
    cases hl : Forest.locate [] root s.forest with
    | none => rw [hl] at hroot; cases hroot
    | some r => exact ⟨r, rfl⟩
  rcases rc_main (splitPath (stripSlashes path)) s root t anc hN hF hloc with
    ⟨s', t', anc', calls, heq, hN', hF', hle, hloc', _, hlast, hsup, hwalk⟩
  have hpne : splitPath (stripSlashes path) ≠ [] := splitPath_ne_nil _
  have hres : resolve_or_create_path root path s = (.ok t'.page.id, s', calls) := by
    unfold resolve_or_create_path
    rw [hpathne]
    exact heq
  refine ⟨t'.page.id, s', calls, hres, ?_, ?_⟩
  · intro c hc hcr
    have hcalls : calls = (resolveOrCreateParts (splitPath (stripSlashes path)) s root).2.2 := by
      rw [heq]
    rw [hcalls] at hc
    rcases rc_calls_shape (splitPath (stripSlashes path)) s root c hc with ⟨x, hx⟩ | ⟨x, ti, hx⟩
    · rw [hx] at hcr
      cases hcr
    · exact ⟨x, ti, hx⟩
  · have hnorm : (stripSlashes path == "") = false := beq_eq_false_iff_ne.mpr hne
    cases hsp : splitPath (stripSlashes path) with
    | nil => exact absurd hsp hpne
    | cons p1 prest =>
      rw [hsp] at hlast hsup hwalk
      cases prest with
      | nil =>
        have htitle : t'.page.title = p1 := by
          have := hlast (by simp)
          simpa using this.symm
        have hdesc : isDescendantOfRoot root (t'.page, anc') = true := by
          have hr : root ∈ anc'.map Page.id := hsup (by simp) root (Or.inr rfl)
          rcases List.mem_map.mp hr with ⟨a, ha, haid⟩
          unfold isDescendantOfRoot
          refine Bool.or_eq_true_iff.mpr (Or.inr ?_)
          exact List.any_eq_true.mpr ⟨a, ha, by simp [haid]⟩
        rcases search_find_desc root s'.forest p1 t' anc'
            (Forest.locate_mem hloc').1 htitle hdesc with ⟨pr, hfind, hprt⟩
        refine ⟨pr.1, ?_, by simp [hprt]⟩
        simp only [get_page_by_path, hnorm, Bool.false_eq_true, if_false]
        rw [hsp]
        dsimp only
        rw [hfind]
        rfl
      | cons p2 prest2 =>
        refine ⟨t'.page, ?_, ?_⟩
        · simp only [get_page_by_path, hnorm, Bool.false_eq_true, if_false]
          rw [hsp]
          exact hwalk none
        · simpa using hlast (by simp)

/-- Witness for C5: creating the path "A/B/C" on the scenario space and then
resolving it returns a page titled "C". -/
theorem path_roundtrip_witness :
    ∃ (leafId : Nat) (s' : SpaceState) (calls : List RemoteCall),
      resolve_or_create_path 1 "A/B/C" exState = (.ok leafId, s', calls) ∧
      (∀ c ∈ calls, c.isCreate = true → ∃ x ti, c = .createContent x ti "") ∧
      ∃ pg, (get_page_by_path 1 s'.forest "A/B/C").1 = .ok (some pg) ∧
        (splitPath (stripSlashes "A/B/C")).getLast? = some pg.title :=
  path_roundtrip 1 "A/B/C" exState (by decide) (by decide) (by rfl) (by decide)

/-! ### C6 — idempotent upsert -/

/-- C6: when the leaf title is absent under the resolved parent,
`create_or_update_page` first creates the page (returning version 1, issuing
no PUT), and a second call on the same path updates that same page (returning
the same id at version 2) issuing no create at all and exactly one PUT. -/
theorem upsert_once (root : Nat) (path b1 b2 : String) (s : SpaceState)
    (hN : NodupIds s.forest) (hF : Fresh s)
    (hroot : (Forest.locate [] root s.forest).isSome = true)
    (parentId : Nat) (s1 : SpaceState) (calls1 : List RemoteCall)
    (hpar : couParentRes root path s = (.ok parentId, s1, calls1))
    (leafTitle : String) (hleaf : couLeaf path = some leafTitle)
    (kids : List Page) (hkids : Remote.children s1.forest parentId = some kids)
    (habsent : kids.find? (fun p => p.title == leafTitle) = none) :
    (create_or_update_page root s path b1).1 = .ok (s1.nextId, 1) ∧
    (∀ c ∈ (create_or_update_page root s path b1).2.2, c.isPut = false) ∧
    (create_or_update_page root (create_or_update_page root s path b1).2.1 path b2).1 =
      .ok (s1.nextId, 2) ∧
    (∀ c ∈ (create_or_update_page root
        (create_or_update_page root s path b1).2.1 path b2).2.2,
      c.isCreate = false) ∧
    ((create_or_update_page root (create_or_update_page root s path b1).2.1 path b2).2.2.filter
      (fun c => c.isPut)).length = 1 := by
  obtain ⟨⟨rt, ranc⟩, hlocroot⟩ : ∃ r, Forest.locate [] root s.forest = some r := by
    cases hl : Forest.locate [] root s.forest with
    | none => rw [hl] at hroot; cases hroot
    | some r => exact ⟨r, rfl⟩
  -- invariants of the parent-resolution state, plus the second-run resolution
  have hstage : NodupIds s1.forest ∧ Fresh s1 ∧
      (∀ sB : SpaceState, ChildExt s1 sB →
        ∃ calls2, couParentRes root path sB = (.ok parentId, sB, calls2) ∧
          ∀ c ∈ calls2, c.isCreate = false ∧ c.isPut = false) ∧
      (∀ c ∈ calls1, c.isPut = false) := by
    by_cases hpp : (couParentPath path != "") = true
    · have hppne : couParentPath path ≠ "" := by simpa using hpp
      have hppbeq : (couParentPath path == "") = false := beq_eq_false_iff_ne.mpr hppne
      have hpar2 : resolveOrCreateParts
          (splitPath (stripSlashes (couParentPath path))) s root =
          (.ok parentId, s1, calls1) := by
        have := hpar
        unfold couParentRes at this
        rw [if_pos hpp] at this
        unfold resolve_or_create_path at this
        rw [hppbeq] at this
        exact this
      have hfr := rc_frame (splitPath (stripSlashes (couParentPath path))) s root hN hF
      rw [hpar2] at hfr
      refine ⟨hfr.1, hfr.2.1, ?_, ?_⟩
      · intro sB hext
        rcases rc_idem (splitPath (stripSlashes (couParentPath path))) s root parentId
            s1 calls1 sB hN hF ⟨rt, ranc, hlocroot⟩ hpar2 hext with ⟨calls2, heq2, hnw⟩
        refine ⟨calls2, ?_, hnw⟩
        unfold couParentRes
        rw [if_pos hpp]
        unfold resolve_or_create_path
        rw [hppbeq]
        exact heq2
      · intro c hc
        have hcalls : calls1 = (resolveOrCreateParts
            (splitPath (stripSlashes (couParentPath path))) s root).2.2 := by
          rw [hpar2]
        rw [hcalls] at hc
        rcases rc_calls_shape _ s root c hc with ⟨x, hx⟩ | ⟨x, ti, hx⟩ <;> rw [hx] <;> rfl
    · have hpar2 : ((.ok root, s, []) :
          (Except HttpError Nat) × SpaceState × List RemoteCall) =
          (.ok parentId, s1, calls1) := by
        have := hpar
        unfold couParentRes at this
        rw [if_neg hpp] at this
        exact this
      have hpid : root = parentId := Except.ok.inj (congrArg (fun x => x.1) hpar2)
      have hs1 : s = s1 := congrArg (fun x => x.2.1) hpar2
      have hcalls1 : ([] : List RemoteCall) = calls1 := congrArg (fun x => x.2.2) hpar2
      refine ⟨hs1 ▸ hN, hs1 ▸ hF, ?_, ?_⟩
      · intro sB hext
        refine ⟨[], ?_, fun c hc => by cases hc⟩
        unfold couParentRes
        rw [if_neg hpp, hpid]
      · intro c hc
        rw [← hcalls1] at hc
        cases hc
  obtain ⟨hN1, hF1, hsecond, hnoput1⟩ := hstage
  -- the parent id is located in s1
  rcases children_inv hkids with ⟨tP, ancP, hlocP, hkidsEq⟩
  have hparentMem : parentId ∈ Forest.ids s1.forest := children_some_mem_ids hkids
  -- remote creation of the leaf in the first call
  have hcr1 : Remote.create s1 parentId leafTitle b1 =
      some (⟨Forest.insertChild parentId ⟨s1.nextId, leafTitle, 1, b1⟩ s1.forest,
          s1.nextId + 1⟩, ⟨s1.nextId, leafTitle, 1, b1⟩) := by
    unfold Remote.create
    rw [hlocP]
  rcases create_spec s1 parentId leafTitle b1 _ _ hcr1 hN1 hF1 with
    ⟨_, _, _, hNB, hFB, hq1fresh⟩
  have hgbt0 : get_page_by_title s1.forest leafTitle parentId = .ok none := by
    unfold get_page_by_title
    rw [hkids]
    dsimp only
    rw [habsent]
  -- full computation of the first call
  have hc1 : create_or_update_page root s path b1 =
      (.ok (s1.nextId, 1),
       ⟨Forest.insertChild parentId ⟨s1.nextId, leafTitle, 1, b1⟩ s1.forest,
          s1.nextId + 1⟩,
       calls1 ++ [.childList parentId, .createContent parentId leafTitle b1]) := by
    simp only [create_or_update_page, hleaf, hpar, hgbt0, hcr1]
  have hq1ne : parentId ≠ (⟨s1.nextId, leafTitle, 1, b1⟩ : Page).id := by
    intro hc
    exact absurd (hF1 parentId hparentMem) (by rw [hc]; exact lt_irrefl _)
  -- child listings only grow from s1 to the post-create state
  have hextB : ChildExt s1
      ⟨Forest.insertChild parentId ⟨s1.nextId, leafTitle, 1, b1⟩ s1.forest,
        s1.nextId + 1⟩ := by
    intro x kids0 hx
    have hxmem : x ∈ Forest.ids s1.forest := children_some_mem_ids hx
    have hxne : x ≠ (⟨s1.nextId, leafTitle, 1, b1⟩ : Page).id := by
      intro hc
      exact absurd (hF1 x hxmem) (by rw [hc]; exact lt_irrefl _)
    refine ⟨if x = parentId then [⟨s1.nextId, leafTitle, 1, b1⟩] else [], ?_⟩
    show Remote.children
      (Forest.insertChild parentId ⟨s1.nextId, leafTitle, 1, b1⟩ s1.forest) x = _
    rw [Remote.children_insert s1.forest parentId ⟨s1.nextId, leafTitle, 1, b1⟩ x hxne,
      hx]
    rfl
  rcases hsecond _ hextB with ⟨calls2, hpar2, hnw2⟩
  -- the leaf is now listed under the parent
  have hchB : Remote.children
      (Forest.insertChild parentId ⟨s1.nextId, leafTitle, 1, b1⟩ s1.forest) parentId =
      some (kids ++ [⟨s1.nextId, leafTitle, 1, b1⟩]) := by
    rw [Remote.children_insert s1.forest parentId ⟨s1.nextId, leafTitle, 1, b1⟩
      parentId hq1ne, hkids]
    simp
  have hgbtB : get_page_by_title
      (Forest.insertChild parentId ⟨s1.nextId, leafTitle, 1, b1⟩ s1.forest)
      leafTitle parentId = .ok (some ⟨s1.nextId, leafTitle, 1, b1⟩) := by
    unfold get_page_by_title
    rw [hchB]
    dsimp only
    rw [List.find?_append, habsent]
    simp [List.find?]
  -- the created leaf reads back at version 1
  have hlocq1 : Forest.locate [] (⟨s1.nextId, leafTitle, 1, b1⟩ : Page).id
      (Forest.insertChild parentId ⟨s1.nextId, leafTitle, 1, b1⟩ s1.forest) =
      some (.node ⟨s1.nextId, leafTitle, 1, b1⟩ [], ancP ++ [tP.page]) := by
    rw [locate_insert_new_all.2 s1.forest [] parentId ⟨s1.nextId, leafTitle, 1, b1⟩
      hN1 hq1fresh, hlocP]
    rfl
  have hget1 : Remote.getPage
      (Forest.insertChild parentId ⟨s1.nextId, leafTitle, 1, b1⟩ s1.forest)
      (⟨s1.nextId, leafTitle, 1, b1⟩ : Page).id =
      some (⟨s1.nextId, leafTitle, 1, b1⟩, ancP ++ [tP.page]) := by
    unfold Remote.getPage
    rw [hlocq1]
    rfl
  have hupd : update_page
      ⟨Forest.insertChild parentId ⟨s1.nextId, leafTitle, 1, b1⟩ s1.forest,
        s1.nextId + 1⟩ ⟨s1.nextId, leafTitle, 1, b1⟩ b2 =
      (.ok 2,
       Remote.putContent
        ⟨Forest.insertChild parentId ⟨s1.nextId, leafTitle, 1, b1⟩ s1.forest,
          s1.nextId + 1⟩ s1.nextId leafTitle 2 b2,
       [.getContent s1.nextId, .putContent s1.nextId leafTitle 2 b2]) := by
    unfold update_page
    rw [hget1]
  have hc2 : create_or_update_page root
      ⟨Forest.insertChild parentId ⟨s1.nextId, leafTitle, 1, b1⟩ s1.forest,
        s1.nextId + 1⟩ path b2 =
      (.ok (s1.nextId, 2),
       Remote.putContent
        ⟨Forest.insertChild parentId ⟨s1.nextId, leafTitle, 1, b1⟩ s1.forest,
          s1.nextId + 1⟩ s1.nextId leafTitle 2 b2,
       calls2 ++ [.childList parentId] ++
        [.getContent s1.nextId, .putContent s1.nextId leafTitle 2 b2]) := by
    simp only [create_or_update_page, hleaf, hpar2, hgbtB, hupd]
  refine ⟨?_, ?_, ?_, ?_, ?_⟩
  · rw [hc1]
  · rw [hc1]
    intro c hc
    rcases List.mem_append.mp hc with h1 | h1
    · exact hnoput1 c h1
    rcases List.mem_cons.mp h1 with h2 | h2
    · rw [h2]; rfl
    rcases List.mem_cons.mp h2 with h3 | h3
    · rw [h3]; rfl
    · cases h3
  · rw [hc1]
    dsimp only
    rw [hc2]
  · rw [hc1]
    dsimp only
    rw [hc2]
    intro c hc
    rcases List.mem_append.mp hc with h1 | h1
    · rcases List.mem_append.mp h1 with h2 | h2
      · exact (hnw2 c h2).1
      · rw [List.mem_singleton.mp h2]; rfl
    rcases List.mem_cons.mp h1 with h2 | h2
    · rw [h2]; rfl
    rcases List.mem_cons.mp h2 with h3 | h3
    · rw [h3]; rfl
    · cases h3
  · rw [hc1]
    dsimp only
    rw [hc2]
    have hf2 : calls2.filter (fun c => c.isPut) = [] :=
      List.filter_eq_nil_iff.mpr (fun c hc => by rw [(hnw2 c hc).2]; exact Bool.false_ne_true)
    rw [List.filter_append, List.filter_append, hf2]
    rfl

/-- Witness for C6: upserting "Docs/Note" twice on the scenario space creates
once (id 11, version 1) and then updates the same page to version 2. -/
theorem upsert_once_witness :
    (create_or_update_page 1 exState "Docs/Note" "b1").1 = .ok (11, 1) ∧
    (∀ c ∈ (create_or_update_page 1 exState "Docs/Note" "b1").2.2, c.isPut = false) ∧
    (create_or_update_page 1 (create_or_update_page 1 exState "Docs/Note" "b1").2.1
      "Docs/Note" "b2").1 = .ok (11, 2) ∧
    (∀ c ∈ (create_or_update_page 1
        (create_or_update_page 1 exState "Docs/Note" "b1").2.1 "Docs/Note" "b2").2.2,
      c.isCreate = false) ∧
    ((create_or_update_page 1 (create_or_update_page 1 exState "Docs/Note" "b1").2.1
        "Docs/Note" "b2").2.2.filter (fun c => c.isPut)).length = 1 :=
  upsert_once 1 "Docs/Note" "b1" "b2" exState (by decide) (by decide) (by rfl)
    10
    ⟨[.node (exPage 1 "Root")
        [.node (exPage 2 "Intro") [],
         .node (exPage 3 "Setup") [.node (exPage 4 "Guide") []],
         .node (exPage 10 "Docs") []]], 11⟩
    [.childList 1, .createContent 1 "Docs" ""]
    (by rfl) "Note" (by rfl) [] (by rfl) (by rfl)

/-! ### C9 — parent lookup -/

/-- C9 counterexample: with the configured root (id 1) nested under a
space-level page "Space", resolving the root's own title succeeds (the
resolved page is the configured root) yet `parent` returns the out-of-scope
parent "Space" instead of null. -/
theorem parent_null_counterexample :
    ensurePageByTitle 1 nestedForest "Root" =
      .ok (exPage 1 "Root", [exPage 0 "Space"]) ∧
    get_page_parent 1 nestedForest "Root" =
      .ok (some ("Space", ["Space", "Root"])) := by
  constructor <;> rfl

/-- C9 (amended): `parent` returns null exactly when the resolved page's
ancestor list is empty; otherwise it returns the last ancestor's title with
the resolved page's breadcrumb path.  When the configured root is itself a
top-level page (empty ancestor chain), "ancestor list empty" coincides with
"the resolved page is the configured root". -/
theorem parent_null_iff (root : Nat) (f : List PTree) (title : String)
    (p : Page) (anc : List Page)
    (hN : NodupIds f)
    (h : ensurePageByTitle root f title = .ok (p, anc)) :
    (get_page_parent root f title = .ok none ↔ anc = []) ∧
    (∀ as_ a, anc = as_ ++ [a] →
      get_page_parent root f title =
        .ok (some (a.title, anc.map Page.title ++ [p.title]))) ∧
    ((Forest.locate [] root f).map (fun r => r.2) = some [] →
      (get_page_parent root f title = .ok none ↔ p.id = root)) := by
  have hud : get_page_parent root f title =
      match anc.getLast? with
      | none => .ok none
      | some par => .ok (some (par.title, anc.map Page.title ++ [p.title])) := by
    unfold get_page_parent
    rw [h]
  rcases ensure_ok_facts root f title p anc h with ⟨t, hmem, hpage, _, hdesc⟩
  have hiff : get_page_parent root f title = .ok none ↔ anc = [] := by
    constructor
    · intro hnone
      rw [hud] at hnone
      cases hl : anc.getLast? with
      | none => exact List.getLast?_eq_none_iff.mp hl
      | some par => rw [hl] at hnone; cases hnone
    · intro hempty
      rw [hud, hempty]
      rfl
  refine ⟨hiff, ?_, ?_⟩
  · intro as_ a hanc
    rw [hud, hanc, List.getLast?_concat, ← hanc]
  · intro hroot
    rw [hiff]
    constructor
    · intro hempty
      unfold isDescendantOfRoot at hdesc
      rcases Bool.or_eq_true_iff.mp hdesc with hh | hh
      · simpa using hh
      · rw [hempty] at hh
        simp at hh
    · intro hpid
      have hloc : Forest.locate [] p.id f = some (t, anc) := by
        rw [← hpage]
        exact Forest.locate_of_mem f hN t anc hmem
      rw [hpid] at hloc
      rw [hloc] at hroot
      simpa using hroot

/-- Witness for C9's amended theorem: on the scenario space, resolving
"Guide" (chain Root/Setup) yields a non-null parent "Setup", and with the
top-level root the null-result criterion coincides with being the root. -/
theorem parent_null_iff_witness :
    (get_page_parent 1 exForest "Guide" = .ok none ↔
      [exPage 1 "Root", exPage 3 "Setup"] = ([] : List Page)) ∧
    get_page_parent 1 exForest "Guide" =
      .ok (some ((exPage 3 "Setup").title,
        [exPage 1 "Root", exPage 3 "Setup"].map Page.title ++ [(exPage 4 "Guide").title])) ∧
    (get_page_parent 1 exForest "Guide" = .ok none ↔ (exPage 4 "Guide").id = 1) := by
  have h := parent_null_iff 1 exForest "Guide" (exPage 4 "Guide")
    [exPage 1 "Root", exPage 3 "Setup"] (by decide) (by rfl)
  exact ⟨h.1, h.2.1 [exPage 1 "Root"] (exPage 3 "Setup") rfl, h.2.2 (by rfl)⟩

/-! ### C3 — move cycle rejection -/

/-- C3: when the resolved page X is the resolved new parent itself or one of
its ancestors (i.e. X's id occurs in the new parent's ancestor-id chain plus
the new parent's own id), `move_page` fails with 422, leaves the remote state
unchanged, and the calls it issued contain no write at all. -/
theorem move_cycle_rejected (root : Nat) (s : SpaceState)
    (pageTitle newParentTitle : String) (X P : Page) (ancX ancP : List Page)
    (hN : NodupIds s.forest)
    (hX : ensurePageByTitle root s.forest pageTitle = .ok (X, ancX))
    (hP : ensurePageByTitle root s.forest newParentTitle = .ok (P, ancP))
    (hcycle : X.id ∈ ancP.map Page.id ++ [P.id]) :
    move_page root s pageTitle newParentTitle =
      (.error ⟨422, "Cannot move page into its own subtree"⟩, s,
        [.search pageTitle, .getContent X.id, .search newParentTitle, .getContent P.id]) ∧
    ∀ c ∈ (move_page root s pageTitle newParentTitle).2.2, c.isWrite = false := by
  have hgX := ensure_ok_getPage root s.forest pageTitle X ancX hN hX
  have hgP := ensure_ok_getPage root s.forest newParentTitle P ancP hN hP
  have hdX : isDescendantOfRoot root (X, ancX) = true :=
    (ensure_ok_facts root s.forest pageTitle X ancX hX).choose_spec.2.2.2
  have hdP : isDescendantOfRoot root (P, ancP) = true :=
    (ensure_ok_facts root s.forest newParentTitle P ancP hP).choose_spec.2.2.2
  have hmain : move_page root s pageTitle newParentTitle =
      (.error ⟨422, "Cannot move page into its own subtree"⟩, s,
        [.search pageTitle, .getContent X.id, .search newParentTitle,
          .getContent P.id]) := by
    unfold move_page
    simp only [hX, hgX, hP, hgP, hdX, hdP, Bool.not_true, Bool.false_eq_true,
      if_false]
    rw [if_pos hcycle]
  refine ⟨hmain, ?_⟩
  rw [hmain]
  intro c hc
  rcases List.mem_cons.mp hc with h1 | hc
  · rw [h1]; rfl
  rcases List.mem_cons.mp hc with h1 | hc
  · rw [h1]; rfl
  rcases List.mem_cons.mp hc with h1 | hc
  · rw [h1]; rfl
  rcases List.mem_cons.mp hc with h1 | hc
  · rw [h1]; rfl
  cases hc

/-- Witness for C3 at a concrete space: root(1) → X(2) → P(3); moving "X"
under its descendant "P" is rejected with 422 and no write call. -/
theorem move_cycle_rejected_witness :
    move_page 1 ⟨[.node (exPage 1 "Root") [.node (exPage 2 "X") [.node (exPage 3 "P") []]]], 10⟩
        "X" "P" =
      (.error ⟨422, "Cannot move page into its own subtree"⟩,
        ⟨[.node (exPage 1 "Root") [.node (exPage 2 "X") [.node (exPage 3 "P") []]]], 10⟩,
        [.search "X", .getContent 2, .search "P", .getContent 3]) :=
  (move_cycle_rejected 1
    ⟨[.node (exPage 1 "Root") [.node (exPage 2 "X") [.node (exPage 3 "P") []]]], 10⟩
    "X" "P" (exPage 2 "X") (exPage 3 "P")
    [exPage 1 "Root"] [exPage 1 "Root", exPage 2 "X"]
    (by decide) (by rfl) (by rfl) (by decide)).1

/-! ### C4 — update version increment -/

/-- C4: `update_page` re-fetches the current remote version N and issues a
single full-body PUT carrying version N+1 with the title unchanged, returning
N+1; run twice sequentially from remote version N it returns N+1 then N+2. -/
theorem update_version_increment (s : SpaceState) (page : Page) (b1 b2 : String)
    (p0 : Page) (anc0 : List Page) (N : Nat)
    (h : Remote.getPage s.forest page.id = some (p0, anc0))
    (hv : p0.version = N) :
    (update_page s page b1).1 = .ok (N + 1) ∧
    (update_page s page b1).2.2 =
      [.getContent page.id, .putContent page.id page.title (N + 1) b1] ∧
    (update_page (update_page s page b1).2.1 page b2).1 = .ok (N + 2) ∧
    (update_page (update_page s page b1).2.1 page b2).2.2 =
      [.getContent page.id, .putContent page.id page.title (N + 2) b2] := by
  have h1 : update_page s page b1 =
      (.ok (N + 1), Remote.putContent s page.id page.title (N + 1) b1,
        [.getContent page.id, .putContent page.id page.title (N + 1) b1]) := by
    unfold update_page
    rw [h]
    dsimp only
    rw [hv]
  have hget2 : Remote.getPage (Remote.putContent s page.id page.title (N + 1) b1).forest
      page.id =
      some ({ p0 with title := page.title, version := N + 1, body := b1 },
        anc0.map (pageSet page.id page.title (N + 1) b1)) :=
    getPage_putContent s page.id page.title (N + 1) b1 p0 anc0 h
  have h2 : update_page (update_page s page b1).2.1 page b2 =
      (.ok (N + 2),
        Remote.putContent (update_page s page b1).2.1 page.id page.title (N + 2) b2,
        [.getContent page.id, .putContent page.id page.title (N + 2) b2]) := by
    rw [h1]
    unfold update_page
    rw [hget2]
  exact ⟨by rw [h1], by rw [h1], by rw [h2], by rw [h2]⟩

/-- Witness for C4: updating "Guide" (remote version 1) twice on the scenario
space returns versions 2 then 3. -/
theorem update_version_increment_witness :
    (update_page exState (exPage 4 "Guide") "b1").1 = .ok 2 ∧
    (update_page exState (exPage 4 "Guide") "b1").2.2 =
      [.getContent 4, .putContent 4 "Guide" 2 "b1"] ∧
    (update_page (update_page exState (exPage 4 "Guide") "b1").2.1
      (exPage 4 "Guide") "b2").1 = .ok 3 ∧
    (update_page (update_page exState (exPage 4 "Guide") "b1").2.1
      (exPage 4 "Guide") "b2").2.2 =
      [.getContent 4, .putContent 4 "Guide" 3 "b2"] :=
  update_version_increment exState (exPage 4 "Guide") "b1" "b2"
    (exPage 4 "Guide") [exPage 1 "Root", exPage 3 "Setup"] 1 (by rfl) rfl

/-! ### C2 — gateway status handling -/

/-- C2 counterexample: status 201 is a 2xx success status, yet the gateway
request helper rejects it with a RemoteError instead of returning the
response, so "succeeds iff 2xx" is false. -/
theorem gateway_2xx_counterexample :
    specIs2xx 201 = true ∧
    requestCheck ⟨201, "created"⟩ = .error ⟨201, "created"⟩ := by
  exact ⟨by decide, rfl⟩

/-- C2 (amended): a remote call through the gateway request helper succeeds
iff the remote status is exactly 200; on any other status it fails with a
RemoteError carrying the remote status code and the response body text
verbatim. -/
theorem gateway_status_passthrough (r : HttpResponse) :
    ((requestCheck r).isOk ↔ r.status = 200) ∧
    (r.status ≠ 200 → requestCheck r = .error ⟨r.status, r.text⟩) := by
  unfold requestCheck
  by_cases h : r.status = 200 <;> simp [h, Except.isOk, Except.toBool]

/-- Witness for C2's amended theorem at a concrete non-200 response. -/
theorem gateway_status_passthrough_witness :
    ((requestCheck ⟨404, "missing"⟩).isOk ↔ (404 : Nat) = 200) ∧
    requestCheck ⟨404, "missing"⟩ = .error ⟨404, "missing"⟩ :=
  ⟨(gateway_status_passthrough ⟨404, "missing"⟩).1,
   (gateway_status_passthrough ⟨404, "missing"⟩).2 (by decide)⟩

/-! ### C10 — empty or all-slash paths -/

/-- C10: for every path that is empty or consists only of slashes, resolution
returns NotFound (`none`) and issues no remote call at all. -/
theorem resolve_empty_path_no_calls (root : Nat) (f : List PTree) (path : String)
    (h : path.toList.all (fun c => c == '/')) :
    get_page_by_path root f path = (.ok none, []) := by
  have h1 : path.toList.dropWhile (fun c => c == '/') = [] := by
    rw [List.dropWhile_eq_nil_iff]
    intro x hx
    exact List.all_eq_true.mp h x hx
  have h2 : stripSlashes path = "" := by
    unfold stripSlashes
    rw [h1]
    rfl
  unfold get_page_by_path
  rw [h2]
  rfl

/-- Witness for C10 at the concrete all-slash path "///". -/
theorem resolve_empty_path_no_calls_witness :
    get_page_by_path 1 exForest "///" = (.ok none, []) :=
  resolve_empty_path_no_calls 1 exForest "///" (by decide)

/-! ### C7 — depth-bounded tree assembly -/

/-- C7: the tree builder returns a leaf with an empty child list at depth 0,
expands each child with the depth decremented by one at depth d+1, and on a
root whose child has its own grandchild a depth-1 tree omits the grandchild
(the child's `children` list is empty). -/
theorem tree_depth_semantics :
    (∀ (path : List String) (t : PTree),
      buildTreeNode 0 path t = ⟨t.page.title, path, []⟩) ∧
    (∀ (d : Nat) (path : List String) (t : PTree),
      buildTreeNode (d + 1) path t =
        ⟨t.page.title, path,
          t.children.map (fun c => buildTreeNode d (path ++ [c.page.title]) c)⟩) ∧
    get_page_tree 1 chainForest none 1 =
      .ok ⟨"Root", ["Root"], [⟨"Child", ["Root", "Child"], []⟩]⟩ := by
  refine ⟨?_, ?_, ?_⟩
  · intro path t
    cases t with
    | node p cs => simp [buildTreeNode, PTree.page]
  · intro d path t
    cases t with
    | node p cs =>
      simp [buildTreeNode, PTree.page, PTree.children, buildTreeForest_eq_map]
  · rfl

/-! ### C8 — pre-order path listing -/

/-- C8: the descendant-path listing is a pre-order traversal: every tree in a
listed forest contributes its slash-joined path immediately followed by the
block of its own descendants' paths (so a parent is emitted before all of its
descendants, siblings in listing order), and on the scenario space the
listing is exactly ["Intro", "Setup", "Setup/Guide"]. -/
theorem list_paths_preorder :
    (∀ (ts : List PTree) (pfx : String) (t : PTree), t ∈ ts →
      ∃ l1 l2, listPagesForest ts pfx =
        l1 ++ (joinPath pfx t.page.title ::
          listPagesForest t.children (joinPath pfx t.page.title)) ++ l2) ∧
    list_pages 1 exForest = .ok ["Intro", "Setup", "Setup/Guide"] := by
  constructor
  · intro ts pfx t ht
    induction ts with
    | nil => cases ht
    | cons u ts ih =>
      rcases List.mem_cons.mp ht with h | h
      · subst h
        refine ⟨[], listPagesForest ts pfx, ?_⟩
        cases t with
        | node p cs => simp [listPagesForest, listPagesTree, PTree.page, PTree.children]
      · rcases ih h with ⟨l1, l2, hd⟩
        cases u with
        | node p cs =>
          refine ⟨(joinPath pfx p.title :: listPagesForest cs (joinPath pfx p.title)) ++ l1,
            l2, ?_⟩
          simp [listPagesForest, listPagesTree, hd]
  · rfl

/-- Witness for C8's pre-order decomposition at the "Setup" subtree of the
scenario space. -/
theorem list_paths_preorder_witness :
    ∃ l1 l2, listPagesForest
        [.node (exPage 2 "Intro") [], .node (exPage 3 "Setup") [.node (exPage 4 "Guide") []]]
        "" =
      l1 ++ (joinPath "" (PTree.page (.node (exPage 3 "Setup") [.node (exPage 4 "Guide") []])).title ::
        listPagesForest (PTree.children (.node (exPage 3 "Setup") [.node (exPage 4 "Guide") []]))
          (joinPath "" (PTree.page (.node (exPage 3 "Setup") [.node (exPage 4 "Guide") []])).title)) ++ l2 :=
  list_paths_preorder.1
    [.node (exPage 2 "Intro") [], .node (exPage 3 "Setup") [.node (exPage 4 "Guide") []]]
    "" (.node (exPage 3 "Setup") [.node (exPage 4 "Guide") []]) (by simp)

end Conflagent
